import Mathlib

/-!
Shallow embedding of the k-shortest-paths solver (Eppstein-style, leftist
deviation heaps) from pcSol_python.py, together with a verification of its
specified properties.

Conventions of the embedding:
* a graph is a list of adjacency lists of (weight, target) pairs, exactly as
  in the source, with natural-number weights (the input contract requires
  non-negative integer weights);
* the distance value infinity is modelled by the value none of Option Nat,
  and the predecessor sentinel -1 by none as well;
* Python list indexing, which raises IndexError when out of range, is
  modelled by Option-valued access: a computation that would raise returns
  none;
* heap nodes live in an explicit store (a list of node records addressed by
  index), so that the in-place field assignments performed by
  HeapNode.merge are modelled faithfully, including their effect on heaps
  that share nodes;
* unbounded loops take a fuel argument; a run that returns none ran out of
  fuel, and a source-level terminating run is a run returning some for a
  suitable fuel.
-/

namespace Epp

/-- Adjacency-list graph: node u owns the list of (weight, target) pairs. -/
abbrev Graph := List (List (Nat × Nat))

/-- Distance array: entry none models the float infinity of the source. -/
abbrev DistA := List (Option Nat)

/-- Predecessor array: entry none models the sentinel -1 of the source. -/
abbrev PredA := List (Option Nat)

/-- Lexicographic comparison of (distance, node) pairs, the order heapq uses
on the tuples pushed by dijkstra. -/
def pairLt (a b : Nat × Nat) : Bool :=
  decide (a.1 < b.1 ∨ (a.1 = b.1 ∧ a.2 < b.2))

/-- Popping the minimum entry of the dijkstra priority queue (heappop). -/
def popMin (pq : List (Nat × Nat)) : Option ((Nat × Nat) × List (Nat × Nat)) :=
  match pq with
  | [] => none
  | x :: xs =>
    let m := xs.foldl (fun b y => if pairLt y b then y else b) x
    some (m, pq.erase m)

/-- Comparison of a fresh tentative distance with a stored one: the source
compares nd < d[v] where d[v] may be the float infinity. -/
def ltOpt (n : Nat) (o : Option Nat) : Bool :=
  match o with
  | none => true
  | some m => decide (n < m)

/-- The inner edge loop of dijkstra: relax every outgoing edge (w, v) of the
freshly popped node u whose tentative distance is du. A target index out of
range raises IndexError in the source, modelled by returning none. -/
def relaxEdges (u du : Nat) :
    List (Nat × Nat) → DistA × PredA × List (Nat × Nat) →
      Option (DistA × PredA × List (Nat × Nat))
  | [], st => some st
  | (w, v) :: rest, (d, pred, pq) =>
    match d[v]? with
    | none => none
    | some dv =>
      if ltOpt (du + w) dv then
        relaxEdges u du rest
          (d.set v (some (du + w)), pred.set v (some u), (du + w, v) :: pq)
      else
        relaxEdges u du rest (d, pred, pq)

/-- The main loop of dijkstra: pop the minimum entry, discard it if stale,
otherwise relax the popped node's edges. -/
def dijkstraLoop (g : Graph) :
    Nat → DistA × PredA × List (Nat × Nat) → Option (DistA × PredA)
  | 0, _ => none
  | fuel + 1, (d, pred, pq) =>
    match popMin pq with
    | none => some (d, pred)
    | some ((du, u), pq') =>
      match d[u]? with
      | none => none
      | some dcur =>
        if dcur = some du then
          match relaxEdges u du (g.getD u []) (d, pred, pq') with
          | none => none
          | some st' => dijkstraLoop g fuel st'
        else
          dijkstraLoop g fuel (d, pred, pq')

/-- Dijkstra's algorithm from src on g, filling the caller-supplied
predecessor array, as in the source. -/
def dijkstra (fuel : Nat) (g : Graph) (src : Nat) (pred0 : PredA) :
    Option (DistA × PredA) :=
  let d0 : DistA := List.replicate g.length none
  match d0[src]? with
  | none => none
  | some _ => dijkstraLoop g fuel (d0.set src (some 0), pred0, [(0, src)])

/-- The reverse graph built by the solver before running dijkstra from the
destination: for every edge (w, v) of u, the reverse graph gains (w, u) at v. -/
def buildRev (g : Graph) : Graph :=
  (List.range g.length).foldl
    (fun rg u =>
      (g.getD u []).foldl
        (fun rg2 wv => rg2.set wv.2 (rg2.getD wv.2 [] ++ [(wv.1, u)])) rg)
    (List.replicate g.length [])

/-- The shortest-path tree as child lists: v is a child of pred v. -/
def buildTree (pred : PredA) (n : Nat) : List (List Nat) :=
  (List.range n).foldl
    (fun t u =>
      match pred.getD u none with
      | some p => t.set p (t.getD p [] ++ [u])
      | none => t)
    (List.replicate n [])

/-- A leftist heap node of the source: key (extra cost of the deviation),
origin and value (endpoints of the deviation edge), child pointers and rank.
Pointers are indices into an explicit store, so that the in-place mutation
done by merge is observable through every alias. -/
structure HNode where
  key : Nat
  origin : Nat
  value : Nat
  left : Option Nat
  right : Option Nat
  rank : Nat
deriving DecidableEq

/-- The node store: handles are list indices, allocation appends. -/
abbrev Store := List HNode

/-- Rank of a possibly-absent heap node (the static helper _rank). -/
def rnk (store : Store) (h : Option Nat) : Nat :=
  match h with
  | none => 0
  | some i =>
    match store[i]? with
    | none => 0
    | some nd => nd.rank

/-- HeapNode.merge. The source mutates the winning root in place
(a.right = ..., swap of a.left and a.right, a.rank = ...) and returns it;
the store-passing embedding performs exactly those field assignments. -/
def mergeF : Nat → Store → Option Nat → Option Nat → Option (Store × Option Nat)
  | 0, _, _, _ => none
  | _ + 1, store, none, b => some (store, b)
  | _ + 1, store, some ia, none => some (store, some ia)
  | fuel + 1, store, some ia0, some ib0 =>
    match store[ia0]?, store[ib0]? with
    | some na0, some nb0 =>
      let swap := nb0.key < na0.key
      let ia := if swap then ib0 else ia0
      let ib := if swap then ia0 else ib0
      let na := if swap then nb0 else na0
      match mergeF fuel store na.right (some ib) with
      | none => none
      | some (store1, r) =>
        match store1[ia]? with
        | none => none
        | some na1 =>
          let na2 : HNode := { na1 with right := r }
          let store2 := store1.set ia na2
          if rnk store2 na2.left < rnk store2 na2.right then
            let na3 : HNode := { na2 with left := na2.right, right := na2.left }
            let store3 := store2.set ia na3
            some (store3.set ia { na3 with rank := 1 + rnk store3 na3.right }, some ia)
          else
            some (store2.set ia { na2 with rank := 1 + rnk store2 na2.right }, some ia)
    | _, _ => none

/-- HeapNode.insert: allocate a fresh singleton node and merge it into h. -/
def insertF (fuel : Nat) (store : Store) (h : Option Nat)
    (key origin value : Nat) : Option (Store × Option Nat) :=
  mergeF fuel (store ++ [⟨key, origin, value, none, none, 1⟩]) h (some store.length)

/-- The per-node edge scan of the sidetrack builder: for every outgoing edge
(w, v) of u with d v finite, insert the deviation with key w + d v - d u,
except that the first zero-key occurrence of the tree edge to pred u is
skipped (the seenp flag of the source). -/
def processEdges (mfuel : Nat) (d : DistA) (pu : Option Nat) (u du : Nat) :
    List (Nat × Nat) → Store → Option Nat → Bool → Option (Store × Option Nat)
  | [], store, hu, _ => some (store, hu)
  | (w, v) :: rest, store, hu, seenp =>
    match d.getD v none with
    | none => processEdges mfuel d pu u du rest store hu seenp
    | some dv =>
      let diff := w + dv - du
      if seenp = false ∧ pu = some v ∧ diff = 0 then
        processEdges mfuel d pu u du rest store hu true
      else
        match insertF mfuel store hu diff u v with
        | none => none
        | some (store', h') => processEdges mfuel d pu u du rest store' h' seenp

/-- The breadth-first walk of the sidetrack builder: process each dequeued
node's edges, then hand the resulting heap handle to every tree child (the
aliasing h v := h u of the source) and enqueue the children. -/
def buildLoop (mfuel : Nat) (g : Graph) (d : DistA) (pred : PredA)
    (tree : List (List Nat)) :
    Nat → Store → List (Option Nat) → List Nat → Option (Store × List (Option Nat))
  | 0, _, _, _ => none
  | _ + 1, store, h, [] => some (store, h)
  | fuel + 1, store, h, u :: rest =>
    let du := (d.getD u none).getD 0
    match processEdges mfuel d (pred.getD u none) u du (g.getD u [])
        store (h.getD u none) false with
    | none => none
    | some (store', hu) =>
      let kids := tree.getD u []
      let h' := kids.foldl (fun hh v => hh.set v hu) (h.set u hu)
      buildLoop mfuel g d pred tree fuel store' h' (rest ++ kids)

/-- Popping the minimum-cost entry of the enumerator's priority queue. -/
def popMinE (pq : List (Nat × Nat × List (Nat × Nat))) :
    Option ((Nat × Nat × List (Nat × Nat)) × List (Nat × Nat × List (Nat × Nat))) :=
  match pq with
  | [] => none
  | x :: xs =>
    let m := xs.foldl (fun b y => if y.1 < b.1 then y else b) x
    some (m, pq.erase m)

/-- Successor push (a) of the enumerator: jump into the deviation heap of the
current sidetrack's target, extending the sidetrack list. -/
def pushJump (store : Store) (h : List (Option Nat)) (cd : Nat) (nd : HNode)
    (newPath : List (Nat × Nat)) (pq : List (Nat × Nat × List (Nat × Nat))) :
    Option (List (Nat × Nat × List (Nat × Nat))) :=
  match h.getD nd.value none with
  | none => some pq
  | some j =>
    match store[j]? with
    | none => none
    | some nj => some ((cd + nj.key, j, newPath) :: pq)

/-- Successor pushes (b) and (c) of the enumerator: move to a child of the
current heap node, keeping the unextended sidetrack list. -/
def pushChild (store : Store) (cd ndkey : Nat) (c : Option Nat)
    (path : List (Nat × Nat)) (pq : List (Nat × Nat × List (Nat × Nat))) :
    Option (List (Nat × Nat × List (Nat × Nat))) :=
  match c with
  | none => some pq
  | some l =>
    match store[l]? with
    | none => none
    | some nl => some ((cd + nl.key - ndkey, l, path) :: pq)

/-- The k-best enumerator loop: pop the cheapest candidate, append it to the
results exactly when its cost strictly exceeds the last accepted cost, then
push the up to three successor candidates. -/
def enumLoop (store : Store) (h : List (Option Nat)) (k : Nat) :
    Nat → List (Nat × Nat × List (Nat × Nat)) → List (Nat × List (Nat × Nat)) →
      Option (List (Nat × List (Nat × Nat)))
  | 0, _, _ => none
  | fuel + 1, pq, results =>
    if k ≤ results.length then some results
    else
      match popMinE pq with
      | none => some results
      | some ((cd, i, path), pq') =>
        match store[i]? with
        | none => none
        | some nd =>
          let newPath := path ++ [(nd.origin, nd.value)]
          match results.getLast? with
          | none => none
          | some last =>
            let results' := if last.1 < cd then results ++ [(cd, newPath)] else results
            match pushJump store h cd nd newPath pq' with
            | none => none
            | some pq1 =>
              match pushChild store cd nd.key nd.left path pq1 with
              | none => none
              | some pq2 =>
                match pushChild store cd nd.key nd.right path pq2 with
                | none => none
                | some pq3 => enumLoop store h k fuel pq3 results'

/-- Outcome of shortest_paths_no_same_arrival up to its final projection:
either the no-path sentinel -1, or the full list of collected results. -/
inductive SPRun where
  | noPath : SPRun
  | run : List (Nat × List (Nat × Nat)) → SPRun
deriving DecidableEq

/-- shortest_paths_no_same_arrival, exposing the collected results list.
The distance check d[src] raises IndexError for a source index out of
range, modelled by returning none; its value none models d[src] == INF. -/
def spnsaRun (fuel : Nat) (g : Graph) (src dst k : Nat) : Option SPRun :=
  let n := g.length
  let revg := buildRev g
  match dijkstra fuel revg dst (List.replicate n none) with
  | none => none
  | some (d, pred) =>
    match d[src]? with
    | none => none
    | some dsv =>
    match dsv with
    | none => some SPRun.noPath
    | some dsrc =>
      let tree := buildTree pred n
      match buildLoop fuel g d pred tree fuel [] (List.replicate n none) [dst] with
      | none => none
      | some (store, h) =>
        let results0 := [(dsrc, ([] : List (Nat × Nat)))]
        match h.getD src none with
        | none => some (SPRun.run results0)
        | some i =>
          match store[i]? with
          | none => none
          | some nd =>
            match enumLoop store h k fuel [(dsrc + nd.key, i, [])] results0 with
            | none => none
            | some rs => some (SPRun.run rs)

/-- Value returned by shortest_paths_no_same_arrival: -1, or the last
collected result (cost, sidetrack list). -/
inductive SPResult where
  | noPath : SPResult
  | found : Nat → List (Nat × Nat) → SPResult
deriving DecidableEq

/-- shortest_paths_no_same_arrival as called by get_kth_shortest_path. -/
def spnsa (fuel : Nat) (g : Graph) (src dst k : Nat) : Option SPResult :=
  match spnsaRun fuel g src dst k with
  | none => none
  | some SPRun.noPath => some SPResult.noPath
  | some (SPRun.run rs) =>
    match rs.getLast? with
    | none => none
    | some (c, p) => some (SPResult.found c p)

/-- The reconstruction loop of get_kth_shortest_path: walk from the source,
taking the pending sidetrack when its origin matches the current node and
the tree predecessor edge otherwise, until the destination is reached. -/
def recon (pred : PredA) (dst : Nat) :
    Nat → Nat → List Nat → List (Nat × Nat) → Option (List Nat)
  | 0, _, _, _ => none
  | fuel + 1, u, path, side =>
    if u = dst then some (path ++ [dst])
    else
      let path' := path ++ [u]
      match side with
      | (o, v) :: rest =>
        if o = u then recon pred dst fuel v path' rest
        else
          match pred.getD u none with
          | some p => recon pred dst fuel p path' side
          | none => none
      | [] =>
        match pred.getD u none with
        | some p => recon pred dst fuel p path' []
        | none => none

/-- get_kth_shortest_path: its own dijkstra on the reverse graph, the
unreachable check returning the empty path, the call to the enumerator, and
the reconstruction walk. The distance check d[src] raises IndexError for a
source index out of range, modelled by returning none; its value none
models d[src] == INF. -/
def getKth (fuel : Nat) (g : Graph) (src dst k : Nat) : Option (List Nat) :=
  let n := g.length
  let revg := buildRev g
  match dijkstra fuel revg dst (List.replicate n none) with
  | none => none
  | some (d, pred) =>
    match d[src]? with
    | none => none
    | some dsv =>
    match dsv with
    | none => some []
    | some _ =>
      match spnsa fuel g src dst k with
      | some (SPResult.found _ side) => recon pred dst fuel src [] side
      | some SPResult.noPath => none
      | none => none

/-- Cost-bearing walks of the graph: PathCost g src v c holds when some walk
from src to v uses edges of g with total weight c. -/
inductive PathCost (g : Graph) (src : Nat) : Nat → Nat → Prop where
  | refl : PathCost g src src 0
  | step {u v w c} : PathCost g src u c → (w, v) ∈ g.getD u [] →
      PathCost g src v (c + w)

/-- Reachability along edges of g. -/
def Reachable (g : Graph) (src v : Nat) : Prop := ∃ c, PathCost g src v c

/-- The chain of predecessor links from v down to src, as the explicit list
of visited nodes. -/
inductive ChainTo (pred : PredA) (src : Nat) : Nat → List Nat → Prop where
  | base : ChainTo pred src src [src]
  | step {v pv l} : pred[v]? = some (some pv) → ChainTo pred src pv l →
      ChainTo pred src v (v :: l)

/-- A walk from src to v that follows predecessor links backwards: every
step enters v from pred v along an edge of g, and c is its total weight. -/
inductive PredPath (g : Graph) (pred : PredA) (src : Nat) : Nat → Nat → Prop where
  | base : PredPath g pred src src 0
  | step {u v w c} : pred[v]? = some (some u) → (w, v) ∈ g.getD u [] →
      PredPath g pred src u c → PredPath g pred src v (c + w)

/-- Well-formed graph per the input contract: every edge target is a node. -/
def WFGraph (g : Graph) : Prop := ∀ u, ∀ e ∈ g.getD u [], e.2 < g.length

/-! ### Specification-side notions used by the verification -/

/-- Node u with finite tentative distance m is fully relaxed: each of its
outgoing edges already satisfies the triangle inequality at m. -/
def Relaxed (g : Graph) (d : DistA) (u m : Nat) : Prop :=
  ∀ e ∈ g.getD u [], ∃ mv, d[e.2]? = some (some mv) ∧ mv ≤ m + e.1

/-- Pointwise refinement of distance arrays: d' is d with some finite
entries decreased (and possibly former infinities made finite). -/
def DLe (d' d : DistA) : Prop :=
  d'.length = d.length ∧
    ∀ (v m : Nat), d[v]? = some (some m) →
      ∃ m', m' ≤ m ∧ d'[v]? = some (some m')

/-- The invariant carried through the relaxation of the edges of the freshly
popped node u (whose own pending-or-relaxed status is suspended). -/
structure RInv (g : Graph) (src u du : Nat) (d : DistA) (pred : PredA)
    (pq : List (Nat × Nat)) : Prop where
  hlen : d.length = g.length
  hplen : pred.length = g.length
  hsrc0 : d[src]? = some (some 0)
  hu : d[u]? = some (some du)
  hpq : ∀ p ∈ pq, p.2 < g.length ∧ ∃ m, d[p.2]? = some (some m) ∧ m ≤ p.1
  hpend : ∀ x m, d[x]? = some (some m) → x ≠ u → ((m, x) ∈ pq ∨ Relaxed g d x m)
  hpred : ∀ v pv, pred[v]? = some (some pv) →
    ∃ w mv mu, (w, v) ∈ g.getD pv [] ∧ d[v]? = some (some mv) ∧
      d[pv]? = some (some mu) ∧ mu + w ≤ mv
  hnone : ∀ v, v < g.length → (pred[v]? = some none ↔ (v = src ∨ d[v]? = some none))
  hchain : ∀ v m, d[v]? = some (some m) → ∃ l, ChainTo pred src v l

/-- The invariant between loop iterations: every finite node is pending in
the frontier at its current value or fully relaxed. -/
structure DInv (g : Graph) (src : Nat) (d : DistA) (pred : PredA)
    (pq : List (Nat × Nat)) : Prop where
  hlen : d.length = g.length
  hplen : pred.length = g.length
  hsrc0 : d[src]? = some (some 0)
  hpq : ∀ p ∈ pq, p.2 < g.length ∧ ∃ m, d[p.2]? = some (some m) ∧ m ≤ p.1
  hpend : ∀ x m, d[x]? = some (some m) → ((m, x) ∈ pq ∨ Relaxed g d x m)
  hpred : ∀ v pv, pred[v]? = some (some pv) →
    ∃ w mv mu, (w, v) ∈ g.getD pv [] ∧ d[v]? = some (some mv) ∧
      d[pv]? = some (some mu) ∧ mu + w ≤ mv
  hnone : ∀ v, v < g.length → (pred[v]? = some none ↔ (v = src ∨ d[v]? = some none))
  hchain : ∀ v m, d[v]? = some (some m) → ∃ l, ChainTo pred src v l

/-- The inner fold of buildRev: insert the reversed edges of node u. -/
def addRev (u : Nat) (rg : Graph) (es : List (Nat × Nat)) : Graph :=
  es.foldl (fun rg2 wv => rg2.set wv.2 (rg2.getD wv.2 [] ++ [(wv.1, u)])) rg

/-- Number of infinite entries of the distance array. -/
def countNone (d : DistA) : Nat := d.countP (fun x => x.isNone)

/-- Sum of the finite entries of the distance array. -/
def sumSome (d : DistA) : Nat := (d.filterMap id).sum

/-- The concrete scenario graph of the specification: nodes 0..3, edges
(0,1,1), (1,3,1), (0,2,2), (2,3,1) in input order. -/
def exG : Graph := [[(1, 1), (2, 2)], [(1, 3)], [(1, 3)], []]

/-- A graph on which the builder's heap sharing is observable: nodes 0 and 1
share the heap of node 0, and node 1's insertion mutates it. -/
def aliasG : Graph := [[(1, 3), (3, 3)], [(1, 0), (5, 3)], [], []]

/-- A graph with a zero-weight cycle 0 -> 1 -> 0 ahead of the destination 2:
the zero-key deviation makes the enumerator re-push the same candidate
forever once distinct costs run out. -/
def zeroCycG : Graph := [[(0, 1), (1, 2)], [(0, 0)], []]

/-- A two-node zero-weight cycle used with source = destination = 0. -/
def selfG : Graph := [[(0, 1)], [(0, 0)]]

/-- Two isolated nodes: destination 1 unreachable from source 0. -/
def discG : Graph := [[], []]

/-- A one-node graph, used with the out-of-range source index 1: the source
crashes on the distance check d[src] instead of returning the sentinel. -/
def oobG : Graph := [[]]

/-! ### Basic facts about the priority-queue model -/

theorem foldl_min_mem (f : Nat × Nat → Nat × Nat → Bool) :
    ∀ (xs : List (Nat × Nat)) (x : Nat × Nat),
      xs.foldl (fun b y => if f y b then y else b) x ∈ x :: xs := by
  intro xs
  induction xs with
  | nil => intro x; simp
  | cons y ys ih =>
    intro x
    have h := ih (if f y x then y else x)
    simp only [List.foldl_cons]
    rcases List.mem_cons.mp h with h1 | h1
    · by_cases hf : f y x
      · simp [hf] at h1
        simp [List.foldl_cons, h1, hf]
      · simp [hf] at h1
        simp [List.foldl_cons, h1, hf]
    · simp [List.mem_cons, h1]

theorem popMin_eq_none {pq : List (Nat × Nat)} (h : popMin pq = none) : pq = [] := by
  cases pq with
  | nil => rfl
  | cons x xs => simp [popMin] at h

theorem popMin_eq_some {pq : List (Nat × Nat)} {m : Nat × Nat}
    {pq' : List (Nat × Nat)} (h : popMin pq = some (m, pq')) :
    m ∈ pq ∧ pq' = pq.erase m := by
  cases pq with
  | nil => simp [popMin] at h
  | cons x xs =>
    simp only [popMin, Option.some_inj, Prod.mk.injEq] at h
    obtain ⟨h1, h2⟩ := h
    subst h1
    exact ⟨foldl_min_mem _ xs x, h2.symm⟩

theorem mem_erase_of_mem_of_ne {l : List (Nat × Nat)} {a b : Nat × Nat}
    (ha : a ∈ l) (hne : a ≠ b) : a ∈ l.erase b :=
  (List.mem_erase_of_ne hne).mpr ha

/-! ### The dijkstra loop invariant -/

theorem DLe.refl (d : DistA) : DLe d d :=
  ⟨rfl, fun _ m h => ⟨m, le_rfl, h⟩⟩

theorem lt_of_getElem?_eq_some {α : Type} {l : List α} {i : Nat} {a : α}
    (h : l[i]? = some a) : i < l.length := by
  by_contra hc
  push_neg at hc
  rw [List.getElem?_eq_none hc] at h
  cases h

theorem DLe.trans {d1 d2 d3 : DistA} (h12 : DLe d1 d2) (h23 : DLe d2 d3) :
    DLe d1 d3 := by
  refine ⟨h12.1.trans h23.1, fun v m h => ?_⟩
  obtain ⟨m2, hm2, hv2⟩ := h23.2 v m h
  obtain ⟨m1, hm1, hv1⟩ := h12.2 v m2 hv2
  exact ⟨m1, hm1.trans hm2, hv1⟩

/-! ### Chain surgery lemmas -/

theorem chain_d_mono {g : Graph} {src : Nat} {d : DistA} {pred : PredA}
    (hpredH : ∀ v pv, pred[v]? = some (some pv) →
      ∃ w mv mu, (w, v) ∈ g.getD pv [] ∧ d[v]? = some (some mv) ∧
        d[pv]? = some (some mu) ∧ mu + w ≤ mv) :
    ∀ {x l}, ChainTo pred src x l → ∀ {mx}, d[x]? = some (some mx) →
      ∀ y ∈ l, ∃ my, my ≤ mx ∧ d[y]? = some (some my) := by
  intro x l hc
  induction hc with
  | base =>
    intro mx hx y hy
    simp only [List.mem_singleton] at hy
    subst hy
    exact ⟨mx, le_rfl, hx⟩
  | step hl hcp ih =>
    intro mx hx y hy
    rcases List.mem_cons.mp hy with h1 | h1
    · subst h1; exact ⟨mx, le_rfl, hx⟩
    · obtain ⟨w, mv, mu, _, hv, hpv, hle⟩ := hpredH _ _ hl
      have hmv : mv = mx := by
        rw [hv] at hx
        exact Option.some_inj.mp (Option.some_inj.mp hx)
      obtain ⟨my, hmy, hdy⟩ := ih hpv y h1
      exact ⟨my, hmy.trans ((Nat.le_add_right mu w).trans (hmv ▸ hle)), hdy⟩

theorem chain_lift {src v : Nat} {pred : PredA} {a : Option Nat} :
    ∀ {x l}, ChainTo pred src x l → v ∉ l → ChainTo (pred.set v a) src x l := by
  intro x l hc
  induction hc with
  | base => intro _; exact ChainTo.base
  | step hl hcp ih =>
    intro hv
    simp only [List.mem_cons, not_or] at hv
    refine ChainTo.step ?_ (ih hv.2)
    rw [List.getElem?_set_ne hv.1]
    exact hl

theorem chain_fix {src v : Nat} {pred : PredA} {a : Option Nat} {lv : List Nat}
    (hnew : ChainTo (pred.set v a) src v lv) :
    ∀ {x l}, ChainTo pred src x l → ∃ l', ChainTo (pred.set v a) src x l' := by
  intro x l hc
  induction hc with
  | base => exact ⟨[src], ChainTo.base⟩
  | @step x' px l' hl hcp ih =>
    by_cases hx : x' = v
    · subst hx; exact ⟨lv, hnew⟩
    · obtain ⟨l'', hc''⟩ := ih
      refine ⟨x' :: l'', ChainTo.step ?_ hc''⟩
      rw [List.getElem?_set_ne (Ne.symm hx)]
      exact hl

/-! ### Preservation of the invariant by one relaxation update -/

theorem relax_update {g : Graph} {src u du w v : Nat} {d : DistA} {pred : PredA}
    {pq : List (Nat × Nat)} {dv : Option Nat}
    (inv : RInv g src u du d pred pq)
    (hedge : (w, v) ∈ g.getD u [])
    (hdv : d[v]? = some dv)
    (hlt : ltOpt (du + w) dv = true) :
    RInv g src u du (d.set v (some (du + w))) (pred.set v (some u))
        ((du + w, v) :: pq) ∧
      DLe (d.set v (some (du + w))) d := by
  have hvlen : v < d.length := lt_of_getElem?_eq_some hdv
  have hvsrc : v ≠ src := by
    intro he
    subst he
    have h0 := inv.hsrc0
    rw [hdv] at h0
    have h0' := Option.some_inj.mp h0
    subst h0'
    simp [ltOpt] at hlt
  have hvu : v ≠ u := by
    intro he
    subst he
    have h0 := inv.hu
    rw [hdv] at h0
    have h0' := Option.some_inj.mp h0
    subst h0'
    simp [ltOpt] at hlt
  have hdset : ∀ x : Nat, x ≠ v → (d.set v (some (du + w)))[x]? = d[x]? := by
    intro x hx
    exact List.getElem?_set_ne (Ne.symm hx)
  have hpset : ∀ x : Nat, x ≠ v → (pred.set v (some u))[x]? = pred[x]? := by
    intro x hx
    exact List.getElem?_set_ne (Ne.symm hx)
  have hdv' : (d.set v (some (du + w)))[v]? = some (some (du + w)) :=
    List.getElem?_set_eq_of_lt _ hvlen
  have hpv' : (pred.set v (some u))[v]? = some (some u) :=
    List.getElem?_set_eq_of_lt _ (by rw [inv.hplen, ← inv.hlen]; exact hvlen)
  have hDLe : DLe (d.set v (some (du + w))) d := by
    refine ⟨by simp, fun x m hx => ?_⟩
    by_cases hxv : x = v
    · subst hxv
      rw [hx] at hdv
      have hdv2 := Option.some_inj.mp hdv
      subst hdv2
      simp [ltOpt] at hlt
      exact ⟨du + w, Nat.le_of_lt hlt, hdv'⟩
    · exact ⟨m, le_rfl, by rw [hdset x hxv]; exact hx⟩
  refine ⟨?_, hDLe⟩
  -- the chain infrastructure, shared by the hchain field below
  obtain ⟨lu, hcu⟩ := inv.hchain u du inv.hu
  have hvnotmem : v ∉ lu := by
    intro hmem
    obtain ⟨mvv, hmvv, hdvv⟩ := chain_d_mono inv.hpred hcu inv.hu v hmem
    rw [hdv] at hdvv
    have := Option.some_inj.mp hdvv
    subst this
    simp [ltOpt] at hlt
    omega
  have hlift : ChainTo (pred.set v (some u)) src u lu := chain_lift hcu hvnotmem
  have hnew : ChainTo (pred.set v (some u)) src v (v :: lu) :=
    ChainTo.step hpv' hlift
  constructor
  · simp [inv.hlen]
  · simp [inv.hplen]
  · rw [hdset src (Ne.symm (Ne.symm hvsrc)).symm]
    exact inv.hsrc0
  · rw [hdset u (Ne.symm (Ne.symm hvu)).symm]
    exact inv.hu
  · -- hpq
    intro p hp
    rcases List.mem_cons.mp hp with h1 | h1
    · subst h1
      refine ⟨by rw [← inv.hlen]; exact hvlen, du + w, hdv', le_rfl⟩
    · obtain ⟨hb, m, hm, hle⟩ := inv.hpq p h1
      refine ⟨hb, ?_⟩
      by_cases hpv2 : p.2 = v
      · rw [hpv2] at hm ⊢
        rw [hdv] at hm
        have := Option.some_inj.mp hm
        subst this
        simp [ltOpt] at hlt
        exact ⟨du + w, hdv', by omega⟩
      · exact ⟨m, by rw [hdset _ hpv2]; exact hm, hle⟩
  · -- hpend (except u)
    intro x m hx hxu
    by_cases hxv : x = v
    · subst hxv
      rw [hdv'] at hx
      have := Option.some_inj.mp (Option.some_inj.mp hx)
      subst this
      exact Or.inl (List.mem_cons_self _ _)
    · rw [hdset x hxv] at hx
      rcases inv.hpend x m hx hxu with h1 | h1
      · exact Or.inl (List.mem_cons_of_mem _ h1)
      · refine Or.inr (fun e he => ?_)
        obtain ⟨mv, hmv, hmle⟩ := h1 e he
        by_cases hev : e.2 = v
        · rw [hev] at hmv ⊢
          rw [hdv] at hmv
          have := Option.some_inj.mp hmv
          subst this
          simp [ltOpt] at hlt
          exact ⟨du + w, hdv', by omega⟩
        · exact ⟨mv, by rw [hdset _ hev]; exact hmv, hmle⟩
  · -- hpred
    intro x pv hx
    by_cases hxv : x = v
    · subst hxv
      rw [hpv'] at hx
      have := Option.some_inj.mp (Option.some_inj.mp hx)
      subst this
      exact ⟨w, du + w, du, hedge, hdv', by rw [hdset u (Ne.symm (Ne.symm hvu)).symm]; exact inv.hu, le_rfl⟩
    · rw [hpset x hxv] at hx
      obtain ⟨w0, mv, mu, he0, hdx, hdpx, hle0⟩ := inv.hpred x pv hx
      refine ⟨w0, mv, ?_⟩
      by_cases hpvv : pv = v
      · subst hpvv
        rw [hdv] at hdpx
        have := Option.some_inj.mp hdpx
        subst this
        simp [ltOpt] at hlt
        refine ⟨du + w, he0, by rw [hdset x hxv]; exact hdx, hdv', by omega⟩
      · exact ⟨mu, he0, by rw [hdset x hxv]; exact hdx,
          by rw [hdset pv hpvv]; exact hdpx, hle0⟩
  · -- hnone
    intro x hxlt
    by_cases hxv : x = v
    · subst hxv
      rw [hpv', hdv']
      constructor
      · intro hcon
        cases Option.some_inj.mp hcon
      · intro hcon
        rcases hcon with h1 | h1
        · exact absurd h1 hvsrc
        · cases Option.some_inj.mp h1
    · rw [hpset x hxv, hdset x hxv]
      exact inv.hnone x hxlt
  · -- hchain
    intro x m hx
    by_cases hxv : x = v
    · subst hxv
      exact ⟨_, hnew⟩
    · rw [hdset x hxv] at hx
      obtain ⟨lx, hcx⟩ := inv.hchain x m hx
      exact chain_fix hnew hcx

/-! ### Preservation across a whole edge list and across loop iterations -/

theorem relax_es {g : Graph} {src u du : Nat} :
    ∀ (es : List (Nat × Nat)) (d : DistA) (pred : PredA) (pq : List (Nat × Nat))
      (d' : DistA) (pred' : PredA) (pq' : List (Nat × Nat)),
      relaxEdges u du es (d, pred, pq) = some (d', pred', pq') →
      (∀ e ∈ es, e ∈ g.getD u []) →
      RInv g src u du d pred pq →
      RInv g src u du d' pred' pq' ∧ DLe d' d ∧
        (∀ p ∈ pq, p ∈ pq') ∧
        (∀ e ∈ es, ∃ mv, d'[e.2]? = some (some mv) ∧ mv ≤ du + e.1) := by
  intro es
  induction es with
  | nil =>
    intro d pred pq d' pred' pq' h _ inv
    simp only [relaxEdges, Option.some_inj, Prod.mk.injEq] at h
    obtain ⟨h1, h2, h3⟩ := h
    subst h1; subst h2; subst h3
    exact ⟨inv, DLe.refl d, fun p hp => hp, by simp⟩
  | cons e rest ih =>
    intro d pred pq d' pred' pq' h hsub inv
    obtain ⟨w, v⟩ := e
    simp only [relaxEdges] at h
    cases hdv : d[v]? with
    | none =>
      simp only [hdv] at h
      cases h
    | some dv =>
      simp only [hdv] at h
      by_cases hlt : ltOpt (du + w) dv = true
      · rw [if_pos hlt] at h
        obtain ⟨inv1, hle1⟩ :=
          relax_update inv (hsub (w, v) (List.mem_cons_self _ _)) hdv hlt
        obtain ⟨inv', hle2, hpq2, htgt⟩ :=
          ih _ _ _ _ _ _ h (fun e he => hsub e (List.mem_cons_of_mem _ he)) inv1
        refine ⟨inv', hle2.trans hle1, ?_, ?_⟩
        · intro p hp
          exact hpq2 p (List.mem_cons_of_mem _ hp)
        · intro e he
          rcases List.mem_cons.mp he with h1 | h1
          · subst h1
            obtain ⟨m', hm', hd'⟩ := hle2.2 v (du + w)
              (List.getElem?_set_eq_of_lt _ (lt_of_getElem?_eq_some hdv))
            exact ⟨m', hd', by omega⟩
          · exact htgt e h1
      · rw [if_neg hlt] at h
        obtain ⟨inv', hle2, hpq2, htgt⟩ :=
          ih _ _ _ _ _ _ h (fun e he => hsub e (List.mem_cons_of_mem _ he)) inv
        refine ⟨inv', hle2, hpq2, ?_⟩
        intro e he
        rcases List.mem_cons.mp he with h1 | h1
        · subst h1
          cases dv with
          | none => simp [ltOpt] at hlt
          | some m0 =>
            simp [ltOpt] at hlt
            obtain ⟨m', hm', hd'⟩ := hle2.2 v m0 hdv
            exact ⟨m', hd', by omega⟩
        · exact htgt e h1

theorem dloop_inv {g : Graph} {src : Nat} :
    ∀ (fuel : Nat) (d : DistA) (pred : PredA) (pq : List (Nat × Nat))
      (df : DistA) (pf : PredA),
      dijkstraLoop g fuel (d, pred, pq) = some (df, pf) →
      DInv g src d pred pq →
      DInv g src df pf [] := by
  intro fuel
  induction fuel with
  | zero => intro d pred pq df pf h _; cases h
  | succ fuel ih =>
    intro d pred pq df pf h inv
    simp only [dijkstraLoop] at h
    cases hpop : popMin pq with
    | none =>
      simp only [hpop, Option.some_inj, Prod.mk.injEq] at h
      obtain ⟨h1, h2⟩ := h
      subst h1; subst h2
      have hnil := popMin_eq_none hpop
      subst hnil
      exact inv
    | some pr =>
      obtain ⟨⟨du, u⟩, pq'⟩ := pr
      simp only [hpop] at h
      obtain ⟨hmem, herase⟩ := popMin_eq_some hpop
      cases hdu : d[u]? with
      | none =>
        simp only [hdu] at h
        cases h
      | some dcur =>
        simp only [hdu] at h
        by_cases hif : dcur = some du
        · rw [if_pos hif] at h
          subst hif
          cases hre : relaxEdges u du (g.getD u []) (d, pred, pq') with
          | none =>
            simp only [hre] at h
            cases h
          | some st' =>
            simp only [hre] at h
            obtain ⟨d1, p1, q1⟩ := st'
            have rinv : RInv g src u du d pred pq' := by
              refine ⟨inv.hlen, inv.hplen, inv.hsrc0, hdu, ?_, ?_, inv.hpred,
                inv.hnone, inv.hchain⟩
              · intro p hp
                rw [herase] at hp
                exact inv.hpq p (List.erase_subset _ _ hp)
              · intro x m hx hxu
                rcases inv.hpend x m hx with h1 | h1
                · refine Or.inl ?_
                  rw [herase]
                  exact mem_erase_of_mem_of_ne h1 (by
                    intro hc
                    exact hxu (congrArg Prod.snd hc))
                · exact Or.inr h1
            obtain ⟨rinv', _, _, htgt⟩ := relax_es _ _ _ _ _ _ _ hre
              (fun e he => he) rinv
            have dinv1 : DInv g src d1 p1 q1 := by
              refine ⟨rinv'.hlen, rinv'.hplen, rinv'.hsrc0, rinv'.hpq, ?_,
                rinv'.hpred, rinv'.hnone, rinv'.hchain⟩
              intro x m hx
              by_cases hxu : x = u
              · subst hxu
                have hxd := rinv'.hu
                rw [hx] at hxd
                have := Option.some_inj.mp (Option.some_inj.mp hxd)
                subst this
                refine Or.inr (fun e he => htgt e he)
              · exact rinv'.hpend x m hx hxu
            exact ih _ _ _ _ _ h dinv1
        · rw [if_neg hif] at h
          have dinv1 : DInv g src d pred pq' := by
            refine ⟨inv.hlen, inv.hplen, inv.hsrc0, ?_, ?_, inv.hpred,
              inv.hnone, inv.hchain⟩
            · intro p hp
              rw [herase] at hp
              exact inv.hpq p (List.erase_subset _ _ hp)
            · intro x m hx
              rcases inv.hpend x m hx with h1 | h1
              · refine Or.inl ?_
                rw [herase]
                refine mem_erase_of_mem_of_ne h1 (fun hc => ?_)
                have hx2 : x = u := congrArg Prod.snd hc
                have hm2 : m = du := congrArg Prod.fst hc
                subst hx2; subst hm2
                rw [hx] at hdu
                exact hif (Option.some_inj.mp hdu).symm
              · exact Or.inr h1
          exact ih _ _ _ _ _ h dinv1

/-! ### The initial state satisfies the invariant -/

theorem getElem?_replicate_of_lt {α : Type} {n i : Nat} {a : α} (h : i < n) :
    (List.replicate n a)[i]? = some a := by
  rw [List.getElem?_eq_getElem (by simpa using h)]
  simp

theorem dinv_init {g : Graph} {src : Nat} (hsrc : src < g.length) :
    DInv g src ((List.replicate g.length none).set src (some 0))
      (List.replicate g.length none) [(0, src)] := by
  have hs0 : ((List.replicate g.length (none : Option Nat)).set src (some 0))[src]? =
      some (some 0) :=
    List.getElem?_set_eq_of_lt _ (by simpa using hsrc)
  have hother : ∀ x : Nat, x ≠ src →
      ((List.replicate g.length (none : Option Nat)).set src (some 0))[x]? =
        (List.replicate g.length (none : Option Nat))[x]? := by
    intro x hx
    exact List.getElem?_set_ne (Ne.symm hx)
  refine ⟨by simp, by simp, hs0, ?_, ?_, ?_, ?_, ?_⟩
  · intro p hp
    simp only [List.mem_singleton] at hp
    subst hp
    exact ⟨hsrc, 0, hs0, le_rfl⟩
  · intro x m hx
    by_cases hxs : x = src
    · subst hxs
      rw [hs0] at hx
      have := Option.some_inj.mp (Option.some_inj.mp hx)
      subst this
      exact Or.inl (List.mem_singleton_self _)
    · rw [hother x hxs] at hx
      rcases Nat.lt_or_ge x g.length with hlt | hge
      · rw [getElem?_replicate_of_lt hlt] at hx
        cases Option.some_inj.mp hx
      · rw [List.getElem?_eq_none (by simpa using hge)] at hx
        cases hx
  · intro v pv hv
    rcases Nat.lt_or_ge v g.length with hlt | hge
    · rw [getElem?_replicate_of_lt hlt] at hv
      cases Option.some_inj.mp hv
    · rw [List.getElem?_eq_none (by simpa using hge)] at hv
      cases hv
  · intro v hv
    rw [getElem?_replicate_of_lt hv]
    constructor
    · intro _
      by_cases hvs : v = src
      · exact Or.inl hvs
      · exact Or.inr (by rw [hother v hvs, getElem?_replicate_of_lt hv])
    · intro _
      rfl
  · intro x m hx
    by_cases hxs : x = src
    · subst hxs
      exact ⟨_, ChainTo.base⟩
    · rw [hother x hxs] at hx
      rcases Nat.lt_or_ge x g.length with hlt | hge
      · rw [getElem?_replicate_of_lt hlt] at hx
        cases Option.some_inj.mp hx
      · rw [List.getElem?_eq_none (by simpa using hge)] at hx
        cases hx

/-! ### Extraction of the final-state properties -/

theorem final_relaxed {g : Graph} {src : Nat} {d : DistA} {pred : PredA}
    (inv : DInv g src d pred []) :
    ∀ (u m : Nat), d[u]? = some (some m) → Relaxed g d u m := by
  intro u m h
  rcases inv.hpend u m h with h1 | h1
  · cases h1
  · exact h1

theorem final_upper {g : Graph} {src : Nat} {d : DistA} {pred : PredA}
    (inv : DInv g src d pred []) :
    ∀ {v c : Nat}, PathCost g src v c → ∃ m, m ≤ c ∧ d[v]? = some (some m) := by
  intro v c hp
  induction hp with
  | refl => exact ⟨0, le_rfl, inv.hsrc0⟩
  | @step u v' w c' _ hedge ih =>
    obtain ⟨mu, hmu, hu⟩ := ih
    obtain ⟨mv, hmv, hmvle⟩ := final_relaxed inv u mu hu (w, v') hedge
    exact ⟨mv, by omega, hmv⟩

theorem final_predpath {g : Graph} {src : Nat} {d : DistA} {pred : PredA}
    (inv : DInv g src d pred []) :
    ∀ {v : Nat} {l : List Nat}, ChainTo pred src v l →
      ∀ m, d[v]? = some (some m) → PredPath g pred src v m := by
  intro v l hc
  induction hc with
  | base =>
    intro m hm
    rw [inv.hsrc0] at hm
    have := Option.some_inj.mp (Option.some_inj.mp hm)
    subst this
    exact PredPath.base
  | @step v' pv l' hl hcp ih =>
    intro m hm
    obtain ⟨w, mv, mu, hedge, hdv, hdpv, hle⟩ := inv.hpred v' pv hl
    have hmv : mv = m := by
      rw [hm] at hdv
      exact Option.some_inj.mp (Option.some_inj.mp hdv.symm)
    obtain ⟨mv', hmv', hmv'le⟩ := final_relaxed inv pv mu hdpv (w, v') hedge
    have hmv2 : mv' = m := by
      rw [hm] at hmv'
      exact Option.some_inj.mp (Option.some_inj.mp hmv'.symm)
    have heq : m = mu + w := by omega
    rw [heq]
    exact PredPath.step hl hedge (ih mu hdpv)

theorem predPath_pathCost {g : Graph} {pred : PredA} {src : Nat} :
    ∀ {v c : Nat}, PredPath g pred src v c → PathCost g src v c := by
  intro v c hp
  induction hp with
  | base => exact PathCost.refl
  | step _ hedge _ ih => exact PathCost.step ih hedge

/-! ### Termination of the dijkstra loop (totality for well-formed graphs) -/

theorem countNone_set_some_of_none :
    ∀ (d : DistA) (v m : Nat), d[v]? = some none →
      countNone (d.set v (some m)) + 1 = countNone d := by
  intro d
  induction d with
  | nil => intro v m h; cases h
  | cons x xs ih =>
    intro v m h
    cases v with
    | zero =>
      rw [List.getElem?_cons_zero] at h
      have hx : x = none := Option.some_inj.mp h
      subst hx
      simp [countNone, List.countP_cons]
    | succ v' =>
      rw [List.getElem?_cons_succ] at h
      have := ih v' m h
      simp only [List.set_cons_succ, countNone, List.countP_cons] at this ⊢
      omega

theorem countNone_set_some_of_some :
    ∀ (d : DistA) (v m m0 : Nat), d[v]? = some (some m0) →
      countNone (d.set v (some m)) = countNone d := by
  intro d
  induction d with
  | nil => intro v m m0 h; cases h
  | cons x xs ih =>
    intro v m m0 h
    cases v with
    | zero =>
      rw [List.getElem?_cons_zero] at h
      have hx : x = some m0 := Option.some_inj.mp h
      subst hx
      simp [countNone, List.countP_cons]
    | succ v' =>
      rw [List.getElem?_cons_succ] at h
      have := ih v' m m0 h
      simp only [List.set_cons_succ, countNone, List.countP_cons] at this ⊢
      omega

theorem sumSome_set_lt :
    ∀ (d : DistA) (v m m0 : Nat), d[v]? = some (some m0) → m < m0 →
      sumSome (d.set v (some m)) < sumSome d := by
  intro d
  induction d with
  | nil => intro v m m0 h; cases h
  | cons x xs ih =>
    intro v m m0 h hlt
    cases v with
    | zero =>
      rw [List.getElem?_cons_zero] at h
      have hx : x = some m0 := Option.some_inj.mp h
      subst hx
      simp only [List.set_cons_zero, sumSome, List.filterMap_cons, id]
      simp only [List.sum_cons]
      omega
    | succ v' =>
      rw [List.getElem?_cons_succ] at h
      have := ih v' m m0 h hlt
      cases x with
      | none =>
        simp only [List.set_cons_succ, sumSome, List.filterMap_cons, id] at this ⊢
        exact this
      | some a =>
        simp only [List.set_cons_succ, sumSome, List.filterMap_cons, id,
          List.sum_cons] at this ⊢
        omega

theorem relax_measure {u du : Nat} :
    ∀ (es : List (Nat × Nat)) (d : DistA) (pred : PredA) (pq : List (Nat × Nat))
      (d' : DistA) (pred' : PredA) (pq' : List (Nat × Nat)),
      relaxEdges u du es (d, pred, pq) = some (d', pred', pq') →
      (d' = d ∧ pred' = pred ∧ pq' = pq) ∨
        (countNone d' < countNone d ∨
          (countNone d' = countNone d ∧ sumSome d' < sumSome d)) := by
  intro es
  induction es with
  | nil =>
    intro d pred pq d' pred' pq' h
    simp only [relaxEdges, Option.some_inj, Prod.mk.injEq] at h
    exact Or.inl ⟨h.1.symm, h.2.1.symm, h.2.2.symm⟩
  | cons e rest ih =>
    intro d pred pq d' pred' pq' h
    obtain ⟨w, v⟩ := e
    simp only [relaxEdges] at h
    cases hdv : d[v]? with
    | none =>
      simp only [hdv] at h
      cases h
    | some dv =>
      simp only [hdv] at h
      by_cases hlt : ltOpt (du + w) dv = true
      · rw [if_pos hlt] at h
        have hrec := ih _ _ _ _ _ _ h
        cases dv with
        | none =>
          have hcn := countNone_set_some_of_none d v (du + w) hdv
          rcases hrec with ⟨h1, _, _⟩ | h1
          · rw [h1]
            omega
          · rcases h1 with h1 | ⟨h1, _⟩ <;> omega
        | some m0 =>
          simp only [ltOpt, decide_eq_true_eq] at hlt
          have hcn := countNone_set_some_of_some d v (du + w) m0 hdv
          have hss := sumSome_set_lt d v (du + w) m0 hdv hlt
          rcases hrec with ⟨h1, _, _⟩ | h1
          · rw [h1]
            omega
          · rcases h1 with h1 | ⟨h1, h2⟩ <;> omega
      · rw [if_neg hlt] at h
        exact ih _ _ _ _ _ _ h

theorem relax_total {g : Graph} {u : Nat} (du : Nat) (hwf : WFGraph g) :
    ∀ (es : List (Nat × Nat)) (d : DistA) (pred : PredA) (pq : List (Nat × Nat)),
      d.length = g.length → (∀ e ∈ es, e ∈ g.getD u []) →
      (∀ p ∈ pq, p.2 < g.length) →
      ∃ d' pred' pq', relaxEdges u du es (d, pred, pq) = some (d', pred', pq') ∧
        d'.length = g.length ∧ (∀ p ∈ pq', p.2 < g.length) := by
  intro es
  induction es with
  | nil =>
    intro d pred pq hlen _ hpq
    exact ⟨d, pred, pq, by simp [relaxEdges], hlen, hpq⟩
  | cons e rest ih =>
    intro d pred pq hlen hsub hpq
    obtain ⟨w, v⟩ := e
    have hv : v < g.length := hwf u (w, v) (hsub (w, v) (List.mem_cons_self _ _))
    have hdv : d[v]? = some d[v] :=
      List.getElem?_eq_getElem (by rw [hlen]; exact hv)
    by_cases hlt : ltOpt (du + w) d[v] = true
    · obtain ⟨d', pred', pq', hrec, hlen', hpq'⟩ :=
        ih (d.set v (some (du + w))) (pred.set v (some u)) ((du + w, v) :: pq)
          (by simpa using hlen)
          (fun e he => hsub e (List.mem_cons_of_mem _ he))
          (by
            intro p hp
            rcases List.mem_cons.mp hp with h1 | h1
            · subst h1; exact hv
            · exact hpq p h1)
      refine ⟨d', pred', pq', ?_, hlen', hpq'⟩
      simp only [relaxEdges, hdv, if_pos hlt]
      exact hrec
    · obtain ⟨d', pred', pq', hrec, hlen', hpq'⟩ :=
        ih d pred pq hlen (fun e he => hsub e (List.mem_cons_of_mem _ he)) hpq
      refine ⟨d', pred', pq', ?_, hlen', hpq'⟩
      simp only [relaxEdges, hdv, if_neg hlt]
      exact hrec

theorem dloop_total {g : Graph} (hwf : WFGraph g) :
    ∀ (a b c : Nat) (d : DistA) (pred : PredA) (pq : List (Nat × Nat)),
      countNone d = a → sumSome d = b → pq.length = c →
      d.length = g.length →
      (∀ p ∈ pq, p.2 < g.length) →
      ∃ fuel r, dijkstraLoop g fuel (d, pred, pq) = some r := by
  intro a
  induction a using Nat.strong_induction_on with
  | _ a iha =>
    intro b
    induction b using Nat.strong_induction_on with
    | _ b ihb =>
      intro c
      induction c using Nat.strong_induction_on with
      | _ c ihc =>
        intro d pred pq ha hb hc hlen hpq
        cases hpop : popMin pq with
        | none =>
          exact ⟨1, (d, pred), by simp [dijkstraLoop, hpop]⟩
        | some pr =>
          obtain ⟨⟨du, u⟩, pq'⟩ := pr
          obtain ⟨hmem, herase⟩ := popMin_eq_some hpop
          have hu : u < g.length := hpq (du, u) hmem
          have hulen : u < d.length := by rw [hlen]; exact hu
          have hdu : d[u]? = some d[u] := List.getElem?_eq_getElem hulen
          have hpq2 : ∀ p ∈ pq', p.2 < g.length := by
            intro p hp
            rw [herase] at hp
            exact hpq p (List.erase_subset _ _ hp)
          have hlenq : pq'.length < pq.length := by
            rw [herase]
            have h1 := List.length_erase_of_mem hmem
            have h2 : 0 < pq.length := List.length_pos_of_mem hmem
            omega
          by_cases hif : d[u] = some du
          · obtain ⟨d1, p1, q1, hre, hlen1, hq1⟩ :=
              relax_total du hwf (g.getD u []) d pred pq' hlen (fun _ he => he) hpq2
            rcases relax_measure _ _ _ _ _ _ _ hre with ⟨hd1, _, hq1'⟩ | hmeas
            · subst hd1
              subst hq1'
              obtain ⟨fuel, r, hloop⟩ :=
                ihc q1.length (hc ▸ hlenq) d1 p1 q1 ha hb rfl hlen hpq2
              refine ⟨fuel + 1, r, ?_⟩
              simp only [dijkstraLoop, hpop, hdu]
              rw [if_pos hif]
              simp only [hre]
              exact hloop
            · rcases hmeas with h1 | ⟨h1, h2⟩
              · obtain ⟨fuel, r, hloop⟩ :=
                  iha (countNone d1) (ha ▸ h1) (sumSome d1) q1.length d1 p1 q1
                    rfl rfl rfl hlen1 hq1
                refine ⟨fuel + 1, r, ?_⟩
                simp only [dijkstraLoop, hpop, hdu]
                rw [if_pos hif]
                simp only [hre]
                exact hloop
              · obtain ⟨fuel, r, hloop⟩ :=
                  ihb (sumSome d1) (hb ▸ h2) q1.length d1 p1 q1
                    (by rw [h1, ha]) rfl rfl hlen1 hq1
                refine ⟨fuel + 1, r, ?_⟩
                simp only [dijkstraLoop, hpop, hdu]
                rw [if_pos hif]
                simp only [hre]
                exact hloop
          · obtain ⟨fuel, r, hloop⟩ :=
              ihc pq'.length (hc ▸ hlenq) d pred pq' ha hb rfl hlen hpq2
            refine ⟨fuel + 1, r, ?_⟩
            simp only [dijkstraLoop, hpop, hdu]
            rw [if_neg hif]
            exact hloop

/-! ### Top-level correctness of the embedded dijkstra -/

theorem dijkstra_partial {g : Graph} {src fuel : Nat} {d : DistA} {pred : PredA}
    (h : dijkstra fuel g src (List.replicate g.length none) = some (d, pred)) :
    DInv g src d pred [] ∧ src < g.length := by
  rcases Nat.lt_or_ge src g.length with hlt | hge
  · refine ⟨?_, hlt⟩
    simp only [dijkstra, getElem?_replicate_of_lt hlt] at h
    exact dloop_inv fuel _ _ _ d pred h (dinv_init hlt)
  · simp only [dijkstra, List.getElem?_eq_none
      (show (List.replicate g.length (none : Option Nat)).length ≤ src by
        simpa using hge)] at h
    cases h

theorem dijkstra_total {g : Graph} {src : Nat} (hwf : WFGraph g)
    (hsrc : src < g.length) :
    ∃ fuel d pred, dijkstra fuel g src (List.replicate g.length none) =
      some (d, pred) := by
  obtain ⟨fuel, r, hloop⟩ := dloop_total hwf
    (countNone ((List.replicate g.length none).set src (some 0)))
    (sumSome ((List.replicate g.length none).set src (some 0)))
    1 ((List.replicate g.length none).set src (some 0))
    (List.replicate g.length none) [(0, src)] rfl rfl rfl (by simp)
    (by
      intro p hp
      simp only [List.mem_singleton] at hp
      subst hp
      exact hsrc)
  obtain ⟨df, pf⟩ := r
  refine ⟨fuel, df, pf, ?_⟩
  simp only [dijkstra, getElem?_replicate_of_lt hsrc]
  exact hloop

theorem dijkstra_correct {g : Graph} {src fuel : Nat} {d : DistA} {pred : PredA}
    (h : dijkstra fuel g src (List.replicate g.length none) = some (d, pred)) :
    (∀ v, v < g.length →
      (Reachable g src v →
        ∃ m, d[v]? = some (some m) ∧ PathCost g src v m ∧
          (∀ c, PathCost g src v c → m ≤ c) ∧ PredPath g pred src v m) ∧
      (¬Reachable g src v → d[v]? = some none ∧ pred[v]? = some none)) ∧
    pred[src]? = some none := by
  obtain ⟨inv, hsrclt⟩ := dijkstra_partial h
  constructor
  · intro v hv
    constructor
    · rintro ⟨c, hpc⟩
      obtain ⟨m, hm, hdm⟩ := final_upper inv hpc
      obtain ⟨l, hcl⟩ := inv.hchain v m hdm
      have hsound : PredPath g pred src v m := final_predpath inv hcl m hdm
      refine ⟨m, hdm, predPath_pathCost hsound, ?_, hsound⟩
      intro c' hc'
      obtain ⟨m', hm', hdm'⟩ := final_upper inv hc'
      rw [hdm] at hdm'
      have hmm : m = m' := Option.some_inj.mp (Option.some_inj.mp hdm')
      omega
    · intro hnr
      have hvd : v < d.length := by rw [inv.hlen]; exact hv
      have hdv : d[v]? = some d[v] := List.getElem?_eq_getElem hvd
      cases hdvv : d[v] with
      | none =>
        refine ⟨by rw [hdv, hdvv], ?_⟩
        exact (inv.hnone v hv).mpr (Or.inr (by rw [hdv, hdvv]))
      | some m =>
        exfalso
        have hdm : d[v]? = some (some m) := by rw [hdv, hdvv]
        obtain ⟨l, hcl⟩ := inv.hchain v m hdm
        have hpp := final_predpath inv hcl m hdm
        exact hnr ⟨m, predPath_pathCost hpp⟩
  · exact (inv.hnone src hsrclt).mpr (Or.inl rfl)

/-! ### The reverse graph: membership characterization and path reversal -/

theorem buildRev_eq (g : Graph) :
    buildRev g = (List.range g.length).foldl
      (fun rg u => addRev u rg (g.getD u [])) (List.replicate g.length []) := rfl

theorem addRev_length (u : Nat) :
    ∀ (es : List (Nat × Nat)) (rg : Graph), (addRev u rg es).length = rg.length := by
  intro es
  induction es with
  | nil => intro rg; rfl
  | cons e rest ih =>
    intro rg
    have hstep : addRev u rg (e :: rest) =
        addRev u (rg.set e.2 (rg.getD e.2 [] ++ [(e.1, u)])) rest := rfl
    rw [hstep, ih]
    simp

theorem getD_getElem? {α : Type} (l : List α) (i : Nat) (dflt : α) :
    l.getD i dflt = (l[i]?).getD dflt := by
  simp [List.getD_eq_getElem?_getD]

theorem getD_set_same {rg : Graph} {v : Nat} (h : v < rg.length)
    (a : List (Nat × Nat)) : (rg.set v a).getD v [] = a := by
  rw [getD_getElem?, List.getElem?_set_eq_of_lt _ h]
  rfl

theorem getD_set_other {rg : Graph} {v0 v : Nat} (h : v0 ≠ v)
    (a : List (Nat × Nat)) : (rg.set v0 a).getD v [] = rg.getD v [] := by
  rw [getD_getElem?, getD_getElem?, List.getElem?_set_ne h]

theorem addRev_mem (u : Nat) :
    ∀ (es : List (Nat × Nat)) (rg : Graph) (v w x : Nat),
      ((w, x) ∈ (addRev u rg es).getD v [] ↔
        ((w, x) ∈ rg.getD v [] ∨ (x = u ∧ (w, v) ∈ es ∧ v < rg.length))) := by
  intro es
  induction es with
  | nil =>
    intro rg v w x
    simp [addRev]
  | cons e rest ih =>
    intro rg v w x
    obtain ⟨w0, v0⟩ := e
    have hstep : addRev u rg ((w0, v0) :: rest) =
        addRev u (rg.set v0 (rg.getD v0 [] ++ [(w0, u)])) rest := rfl
    rw [hstep, ih]
    have hlen : (rg.set v0 (rg.getD v0 [] ++ [(w0, u)])).length = rg.length := by simp
    rw [hlen]
    by_cases hv0 : v0 < rg.length
    · by_cases hvv : v = v0
      · subst hvv
        rw [getD_set_same hv0]
        constructor
        · rintro (h | ⟨hx, h2, h3⟩)
          · rcases List.mem_append.mp h with h1 | h1
            · exact Or.inl h1
            · simp only [List.mem_singleton, Prod.mk.injEq] at h1
              refine Or.inr ⟨h1.2, List.mem_cons.mpr (Or.inl ?_), hv0⟩
              rw [h1.1]
          · exact Or.inr ⟨hx, List.mem_cons.mpr (Or.inr h2), h3⟩
        · rintro (h | ⟨hx, h2, h3⟩)
          · exact Or.inl (List.mem_append.mpr (Or.inl h))
          · rcases List.mem_cons.mp h2 with h2 | h2
            · simp only [Prod.mk.injEq] at h2
              refine Or.inl (List.mem_append.mpr (Or.inr ?_))
              simp [h2.1, hx]
            · exact Or.inr ⟨hx, h2, h3⟩
      · rw [getD_set_other (fun he => hvv he.symm)]
        constructor
        · rintro (h | ⟨hx, h2, h3⟩)
          · exact Or.inl h
          · exact Or.inr ⟨hx, List.mem_cons.mpr (Or.inr h2), h3⟩
        · rintro (h | ⟨hx, h2, h3⟩)
          · exact Or.inl h
          · rcases List.mem_cons.mp h2 with h2 | h2
            · simp only [Prod.mk.injEq] at h2
              exact absurd h2.2 hvv
            · exact Or.inr ⟨hx, h2, h3⟩
    · rw [List.set_eq_of_length_le (by omega)]
      constructor
      · rintro (h | ⟨hx, h2, h3⟩)
        · exact Or.inl h
        · exact Or.inr ⟨hx, List.mem_cons.mpr (Or.inr h2), h3⟩
      · rintro (h | ⟨hx, h2, h3⟩)
        · exact Or.inl h
        · rcases List.mem_cons.mp h2 with h2 | h2
          · simp only [Prod.mk.injEq] at h2
            omega
          · exact Or.inr ⟨hx, h2, h3⟩

theorem revFold_length (g : Graph) :
    ∀ (us : List Nat) (rg : Graph),
      (us.foldl (fun rg u => addRev u rg (g.getD u [])) rg).length = rg.length := by
  intro us
  induction us with
  | nil => intro rg; rfl
  | cons u0 us ih =>
    intro rg
    simp only [List.foldl_cons]
    rw [ih, addRev_length]

theorem revFold_mem (g : Graph) :
    ∀ (us : List Nat) (rg : Graph) (v w x : Nat),
      ((w, x) ∈ (us.foldl (fun rg u => addRev u rg (g.getD u [])) rg).getD v [] ↔
        ((w, x) ∈ rg.getD v [] ∨
          (x ∈ us ∧ (w, v) ∈ g.getD x [] ∧ v < rg.length))) := by
  intro us
  induction us with
  | nil =>
    intro rg v w x
    simp
  | cons u0 us ih =>
    intro rg v w x
    simp only [List.foldl_cons]
    rw [ih, addRev_mem, addRev_length]
    constructor
    · rintro ((h | ⟨hx, h2, h3⟩) | ⟨hx, h2, h3⟩)
      · exact Or.inl h
      · subst hx
        exact Or.inr ⟨List.mem_cons_self _ _, h2, h3⟩
      · exact Or.inr ⟨List.mem_cons_of_mem _ hx, h2, h3⟩
    · rintro (h | ⟨hx, h2, h3⟩)
      · exact Or.inl (Or.inl h)
      · rcases List.mem_cons.mp hx with h1 | h1
        · subst h1
          exact Or.inl (Or.inr ⟨rfl, h2, h3⟩)
        · exact Or.inr ⟨h1, h2, h3⟩

theorem buildRev_length (g : Graph) : (buildRev g).length = g.length := by
  rw [buildRev_eq, revFold_length]
  simp

theorem buildRev_mem {g : Graph} {v w x : Nat} :
    (w, x) ∈ (buildRev g).getD v [] ↔
      (x < g.length ∧ (w, v) ∈ g.getD x [] ∧ v < g.length) := by
  rw [buildRev_eq, revFold_mem]
  have hrep : (List.replicate g.length ([] : List (Nat × Nat))).getD v [] = [] := by
    rw [getD_getElem?]
    rcases Nat.lt_or_ge v g.length with h | h
    · rw [getElem?_replicate_of_lt h]
      rfl
    · rw [List.getElem?_eq_none (by simpa using h)]
      rfl
  rw [hrep]
  simp [List.mem_range]

theorem buildRev_wf (g : Graph) : WFGraph (buildRev g) := by
  intro v e he
  obtain ⟨w, x⟩ := e
  rw [buildRev_length]
  exact (buildRev_mem.mp he).1

theorem src_lt_of_edge {g : Graph} {u : Nat} {e : Nat × Nat}
    (h : e ∈ g.getD u []) : u < g.length := by
  by_contra hc
  push_neg at hc
  rw [getD_getElem?, List.getElem?_eq_none (by simpa using hc)] at h
  cases h

theorem pathCost_front {g : Graph} {t u s w c : Nat}
    (hedge : (w, u) ∈ g.getD t []) (hp : PathCost g u s c) :
    PathCost g t s (c + w) := by
  induction hp with
  | refl => exact PathCost.step PathCost.refl hedge
  | @step y s' wy c0 _ hedge2 ih =>
    have := PathCost.step ih hedge2
    rw [Nat.add_right_comm] at this
    exact this

theorem pathCost_rev {g : Graph} (hwf : WFGraph g) :
    ∀ {a b c : Nat}, PathCost g a b c → PathCost (buildRev g) b a c := by
  intro a b c hp
  induction hp with
  | refl => exact PathCost.refl
  | @step u v w c0 hp0 hedge ih =>
    have hrevedge : (w, u) ∈ (buildRev g).getD v [] :=
      buildRev_mem.mpr ⟨src_lt_of_edge hedge, hedge, hwf u (w, v) hedge⟩
    exact pathCost_front hrevedge ih

theorem pathCost_unrev {g : Graph} :
    ∀ {a b c : Nat}, PathCost (buildRev g) a b c → PathCost g b a c := by
  intro a b c hp
  induction hp with
  | refl => exact PathCost.refl
  | @step u v w c0 hp0 hedge ih =>
    have hgedge : (w, u) ∈ g.getD v [] := (buildRev_mem.mp hedge).2.1
    exact pathCost_front hgedge ih

theorem pathCost_rev_iff {g : Graph} (hwf : WFGraph g) {a b c : Nat} :
    PathCost g a b c ↔ PathCost (buildRev g) b a c :=
  ⟨pathCost_rev hwf, pathCost_unrev⟩

/-! ### Strict monotonicity of the enumerator's results list -/

theorem chain_last_ge :
    ∀ (l : List Nat) (a : Nat), List.Chain' (· < ·) l → l.getLast? = some a →
      ∀ b ∈ l, b ≤ a := by
  intro l
  induction l with
  | nil => intro a _ h; cases h
  | cons x xs ih =>
    intro a hch hlast b hb
    cases xs with
    | nil =>
      simp only [List.getLast?_singleton, Option.some_inj] at hlast
      simp only [List.mem_singleton] at hb
      omega
    | cons y ys =>
      rw [List.getLast?_cons_cons] at hlast
      have hch' : List.Chain' (· < ·) (y :: ys) := hch.tail
      have hxy : x < y := List.chain'_cons.mp hch |>.1
      rcases List.mem_cons.mp hb with h1 | h1
      · subst h1
        have := ih a hch' hlast y (List.mem_cons_self _ _)
        omega
      · exact ih a hch' hlast b h1

theorem getLast?_map_fst (l : List (Nat × List (Nat × Nat))) :
    (l.map Prod.fst).getLast? = l.getLast?.map Prod.fst := by
  rw [List.getLast?_map]

theorem enumLoop_sorted {store : Store} {h : List (Option Nat)} {k : Nat} :
    ∀ (fuel : Nat) (pq : List (Nat × Nat × List (Nat × Nat)))
      (results res : List (Nat × List (Nat × Nat))),
      enumLoop store h k fuel pq results = some res →
      results ≠ [] →
      List.Chain' (· < ·) (results.map Prod.fst) →
      res ≠ [] ∧ List.Chain' (· < ·) (res.map Prod.fst) := by
  intro fuel
  induction fuel with
  | zero => intro pq results res hrun; cases hrun
  | succ fuel ih =>
    intro pq results res hrun hne hch
    simp only [enumLoop] at hrun
    by_cases hk : k ≤ results.length
    · rw [if_pos hk] at hrun
      have := Option.some_inj.mp hrun
      subst this
      exact ⟨hne, hch⟩
    · rw [if_neg hk] at hrun
      cases hpop : popMinE pq with
      | none =>
        rw [hpop] at hrun
        have := Option.some_inj.mp hrun
        subst this
        exact ⟨hne, hch⟩
      | some pr =>
        obtain ⟨⟨cd, i, path⟩, pq'⟩ := pr
        rw [hpop] at hrun
        cases hnd : store[i]? with
        | none => simp only [hnd] at hrun; cases hrun
        | some nd =>
          simp only [hnd] at hrun
          cases hlast : results.getLast? with
          | none => simp only [hlast] at hrun; cases hrun
          | some last =>
            simp only [hlast] at hrun
            cases hp1 : pushJump store h cd nd (path ++ [(nd.origin, nd.value)]) pq' with
            | none => simp only [hp1] at hrun; cases hrun
            | some pq1 =>
              simp only [hp1] at hrun
              cases hp2 : pushChild store cd nd.key nd.left path pq1 with
              | none => simp only [hp2] at hrun; cases hrun
              | some pq2 =>
                simp only [hp2] at hrun
                cases hp3 : pushChild store cd nd.key nd.right path pq2 with
                | none => simp only [hp3] at hrun; cases hrun
                | some pq3 =>
                  simp only [hp3] at hrun
                  by_cases hcd : last.1 < cd
                  · rw [if_pos hcd] at hrun
                    refine ih pq3 _ res hrun (by simp) ?_
                    rw [List.map_append]
                    rw [List.chain'_append]
                    refine ⟨hch, by simp, ?_⟩
                    intro x hx y hy
                    rw [getLast?_map_fst, hlast] at hx
                    simp only [Option.map_some', Option.mem_def,
                      Option.some_inj] at hx
                    simp only [List.map_cons, List.map_nil, List.head?_cons,
                      Option.mem_def, Option.some_inj] at hy
                    subst hx
                    subst hy
                    exact hcd
                  · rw [if_neg hcd] at hrun
                    exact ih pq3 _ res hrun hne hch

theorem spnsaRun_sorted {fuel : Nat} {g : Graph} {src dst k : Nat}
    {rs : List (Nat × List (Nat × Nat))}
    (h : spnsaRun fuel g src dst k = some (SPRun.run rs)) :
    rs ≠ [] ∧ List.Chain' (· < ·) (rs.map Prod.fst) := by
  simp only [spnsaRun] at h
  cases hd : dijkstra fuel (buildRev g) dst (List.replicate g.length none) with
  | none => simp only [hd] at h; cases h
  | some dp =>
    obtain ⟨d, pred⟩ := dp
    simp only [hd] at h
    cases hds : d[src]? with
    | none => simp only [hds] at h; cases h
    | some dsv =>
      simp only [hds] at h
      cases dsv with
      | none =>
        simp only [] at h
        cases Option.some_inj.mp h
      | some dsrc =>
        simp only [] at h
        cases hb : buildLoop fuel g d pred (buildTree pred g.length) fuel []
            (List.replicate g.length none) [dst] with
        | none => simp only [hb] at h; cases h
        | some sh =>
          obtain ⟨store, hh⟩ := sh
          simp only [hb] at h
          cases hhs : hh.getD src none with
          | none =>
            simp only [hhs] at h
            have h2 := Option.some_inj.mp h
            injection h2 with h3
            subst h3
            exact ⟨by simp, by simp⟩
          | some i =>
            simp only [hhs] at h
            cases hnd : store[i]? with
            | none => simp only [hnd] at h; cases h
            | some nd =>
              simp only [hnd] at h
              cases he : enumLoop store hh k fuel [(dsrc + nd.key, i, [])]
                  [(dsrc, [])] with
              | none => simp only [he] at h; cases h
              | some rs' =>
                simp only [he] at h
                have h2 := Option.some_inj.mp h
                injection h2 with h3
                subst h3
                exact enumLoop_sorted fuel _ _ _ he (by simp) (by simp)

/-- When the enumerator saturates, shortest_paths_no_same_arrival returns
the last collected result, which has the maximal collected cost. -/
theorem spnsa_last_max {fuel : Nat} {g : Graph} {src dst k : Nat}
    {rs : List (Nat × List (Nat × Nat))}
    (h : spnsaRun fuel g src dst k = some (SPRun.run rs)) :
    ∃ c p, rs.getLast? = some (c, p) ∧
      spnsa fuel g src dst k = some (SPResult.found c p) ∧
      ∀ pr ∈ rs, pr.1 ≤ c := by
  obtain ⟨hne, hch⟩ := spnsaRun_sorted h
  cases hlast : rs.getLast? with
  | none =>
    rw [List.getLast?_eq_none_iff] at hlast
    exact absurd hlast hne
  | some cp =>
    obtain ⟨c, p⟩ := cp
    refine ⟨c, p, rfl, ?_, ?_⟩
    · simp only [spnsa, h, hlast]
    · intro pr hpr
      have hmapped : (rs.map Prod.fst).getLast? = some c := by
        rw [getLast?_map_fst, hlast]
        rfl
      exact chain_last_ge _ c hch hmapped pr.1 (List.mem_map_of_mem _ hpr)

/-! ### The unreachable case -/

theorem rev_d_unreachable {g : Graph} {t s fuel : Nat} {d : DistA} {pred : PredA}
    (hnr : ¬Reachable g s t)
    (hd : dijkstra fuel (buildRev g) t (List.replicate g.length none) =
      some (d, pred)) :
    d[s]? = none ∨ d[s]? = some none := by
  have hd' : dijkstra fuel (buildRev g) t
      (List.replicate (buildRev g).length none) = some (d, pred) := by
    rw [buildRev_length]
    exact hd
  obtain ⟨inv, htlt⟩ := dijkstra_partial hd'
  rcases Nat.lt_or_ge s (buildRev g).length with hs | hs
  · have hnrev : ¬Reachable (buildRev g) t s := by
      rintro ⟨c, hc⟩
      exact hnr ⟨c, pathCost_unrev hc⟩
    obtain ⟨hdnone, _⟩ := ((dijkstra_correct hd').1 s hs).2 hnrev
    exact Or.inr hdnone
  · exact Or.inl (List.getElem?_eq_none (by rw [inv.hlen]; exact hs))

theorem rev_d_unreachable_lt {g : Graph} {t s fuel : Nat} {d : DistA}
    {pred : PredA} (hs : s < g.length) (hnr : ¬Reachable g s t)
    (hd : dijkstra fuel (buildRev g) t (List.replicate g.length none) =
      some (d, pred)) :
    d[s]? = some none := by
  have hd' : dijkstra fuel (buildRev g) t
      (List.replicate (buildRev g).length none) = some (d, pred) := by
    rw [buildRev_length]
    exact hd
  have hs' : s < (buildRev g).length := by
    rw [buildRev_length]
    exact hs
  have hnrev : ¬Reachable (buildRev g) t s := by
    rintro ⟨c, hc⟩
    exact hnr ⟨c, pathCost_unrev hc⟩
  exact (((dijkstra_correct hd').1 s hs').2 hnrev).1

theorem spnsa_unreachable_run {g : Graph} {s t k fuel : Nat}
    (hnr : ¬Reachable g s t) :
    spnsaRun fuel g s t k = none ∨ spnsaRun fuel g s t k = some SPRun.noPath := by
  simp only [spnsaRun]
  cases hd : dijkstra fuel (buildRev g) t (List.replicate g.length none) with
  | none => exact Or.inl rfl
  | some dp =>
    obtain ⟨d, pred⟩ := dp
    simp only [hd]
    rcases rev_d_unreachable hnr hd with hds | hds
    · rw [hds]
      exact Or.inl rfl
    · rw [hds]
      exact Or.inr rfl

theorem spnsa_unreachable_exists {g : Graph} {s t k : Nat}
    (hs : s < g.length) (ht : t < g.length) (hnr : ¬Reachable g s t) :
    ∃ fuel, spnsaRun fuel g s t k = some SPRun.noPath := by
  obtain ⟨fuel, d, pred, hd⟩ := dijkstra_total (buildRev_wf g)
    (show t < (buildRev g).length by rw [buildRev_length]; exact ht)
  have hd2 : dijkstra fuel (buildRev g) t (List.replicate g.length none) =
      some (d, pred) := by
    rw [← buildRev_length g]
    exact hd
  refine ⟨fuel, ?_⟩
  simp only [spnsaRun, hd2, rev_d_unreachable_lt hs hnr hd2]

theorem getKth_unreachable {g : Graph} {s t k fuel : Nat}
    (hnr : ¬Reachable g s t) :
    getKth fuel g s t k = none ∨ getKth fuel g s t k = some [] := by
  simp only [getKth]
  cases hd : dijkstra fuel (buildRev g) t (List.replicate g.length none) with
  | none => exact Or.inl rfl
  | some dp =>
    obtain ⟨d, pred⟩ := dp
    simp only [hd]
    rcases rev_d_unreachable hnr hd with hds | hds
    · rw [hds]
      exact Or.inl rfl
    · rw [hds]
      exact Or.inr rfl

theorem getKth_unreachable_exists {g : Graph} {s t k : Nat}
    (hs : s < g.length) (ht : t < g.length) (hnr : ¬Reachable g s t) :
    ∃ fuel, getKth fuel g s t k = some [] := by
  obtain ⟨fuel, d, pred, hd⟩ := dijkstra_total (buildRev_wf g)
    (show t < (buildRev g).length by rw [buildRev_length]; exact ht)
  have hd2 : dijkstra fuel (buildRev g) t (List.replicate g.length none) =
      some (d, pred) := by
    rw [← buildRev_length g]
    exact hd
  refine ⟨fuel, ?_⟩
  simp only [getKth, hd2, rev_d_unreachable_lt hs hnr hd2]

/-! ### The first result (k = 1) and the source-equals-destination case -/

theorem getD_some {l : List (Option Nat)} {i x : Nat}
    (h : l.getD i none = some x) : l[i]? = some (some x) := by
  rw [getD_getElem? l i none] at h
  cases hl : l[i]? with
  | none => rw [hl] at h; cases h
  | some v =>
    rw [hl] at h
    simp only [Option.getD_some] at h
    rw [h]

theorem enumLoop_k_le {store : Store} {h : List (Option Nat)} {k fuel : Nat}
    {pq : List (Nat × Nat × List (Nat × Nat))}
    {results res : List (Nat × List (Nat × Nat))}
    (hk : k ≤ results.length)
    (hrun : enumLoop store h k fuel pq results = some res) : res = results := by
  cases fuel with
  | zero => cases hrun
  | succ fuel =>
    simp only [enumLoop, if_pos hk] at hrun
    exact (Option.some_inj.mp hrun).symm

theorem spnsaRun_k1 {fuel : Nat} {g : Graph} {s t : Nat}
    {rs : List (Nat × List (Nat × Nat))}
    (h : spnsaRun fuel g s t 1 = some (SPRun.run rs)) :
    ∃ d pred dsrc,
      dijkstra fuel (buildRev g) t (List.replicate g.length none) =
        some (d, pred) ∧
      d[s]? = some (some dsrc) ∧ rs = [(dsrc, [])] := by
  simp only [spnsaRun] at h
  cases hd : dijkstra fuel (buildRev g) t (List.replicate g.length none) with
  | none => simp only [hd] at h; cases h
  | some dp =>
    obtain ⟨d, pred⟩ := dp
    simp only [hd] at h
    cases hds : d[s]? with
    | none => simp only [hds] at h; cases h
    | some dsv =>
      simp only [hds] at h
      cases dsv with
      | none =>
        simp only [] at h
        cases Option.some_inj.mp h
      | some dsrc =>
        simp only [] at h
        refine ⟨d, pred, dsrc, rfl, hds, ?_⟩
        cases hb : buildLoop fuel g d pred (buildTree pred g.length) fuel []
            (List.replicate g.length none) [t] with
        | none => simp only [hb] at h; cases h
        | some sh =>
          obtain ⟨store, hh⟩ := sh
          simp only [hb] at h
          cases hhs : hh.getD s none with
          | none =>
            simp only [hhs] at h
            have h2 := Option.some_inj.mp h
            injection h2 with h3
            exact h3.symm
          | some i =>
            simp only [hhs] at h
            cases hnd : store[i]? with
            | none => simp only [hnd] at h; cases h
            | some nd =>
              simp only [hnd] at h
              cases he : enumLoop store hh 1 fuel [(dsrc + nd.key, i, [])]
                  [(dsrc, [])] with
              | none => simp only [he] at h; cases h
              | some rs' =>
                simp only [he] at h
                have h2 := Option.some_inj.mp h
                injection h2 with h3
                subst h3
                exact enumLoop_k_le (by simp) he

theorem spnsa_k1_correct {g : Graph} {s t fuel c : Nat} {p : List (Nat × Nat)}
    (hwf : WFGraph g)
    (h : spnsa fuel g s t 1 = some (SPResult.found c p)) :
    p = [] ∧ PathCost g s t c ∧ (∀ c', PathCost g s t c' → c ≤ c') ∧
      ∀ (fuel2 : Nat) (D : DistA) (P : PredA),
        dijkstra fuel2 g s (List.replicate g.length none) = some (D, P) →
        D.getD t none = some c := by
  simp only [spnsa] at h
  cases hr : spnsaRun fuel g s t 1 with
  | none => rw [hr] at h; cases h
  | some r =>
    cases r with
    | noPath =>
      rw [hr] at h
      simp only at h
      cases Option.some_inj.mp h
    | run rs =>
      rw [hr] at h
      simp only at h
      obtain ⟨d, pred, dsrc, hd, hds, hrs⟩ := spnsaRun_k1 hr
      subst hrs
      simp only [List.getLast?_singleton] at h
      have h2 := Option.some_inj.mp h
      have hc : dsrc = c := by injection h2 with h3 h4
      have hp : p = [] := by injection h2 with h3 h4; exact h4.symm
      subst hc
      refine ⟨hp, ?_⟩
      have hd2 : dijkstra fuel (buildRev g) t
          (List.replicate (buildRev g).length none) = some (d, pred) := by
        rw [buildRev_length]
        exact hd
      obtain ⟨inv, htlt⟩ := dijkstra_partial hd2
      have hdso : d[s]? = some (some dsrc) := hds
      have hslt : s < (buildRev g).length := by
        rw [← inv.hlen]
        exact lt_of_getElem?_eq_some hdso
      have hreach : Reachable (buildRev g) t s := by
        by_contra hnr
        obtain ⟨hdnone, _⟩ := ((dijkstra_correct hd2).1 s hslt).2 hnr
        rw [hdso] at hdnone
        cases Option.some_inj.mp hdnone
      obtain ⟨m, hdm, hpc, hmin, _⟩ := ((dijkstra_correct hd2).1 s hslt).1 hreach
      have hm : dsrc = m := by
        rw [hdso] at hdm
        exact Option.some_inj.mp (Option.some_inj.mp hdm)
      subst hm
      have hfwd : PathCost g s t dsrc := pathCost_unrev hpc
      have hfmin : ∀ c', PathCost g s t c' → dsrc ≤ c' := by
        intro c' hc'
        exact hmin c' (pathCost_rev hwf hc')
      refine ⟨hfwd, hfmin, ?_⟩
      intro fuel2 D P hD
      obtain ⟨invF, hsltF⟩ := dijkstra_partial hD
      have htltF : t < g.length := by rw [← buildRev_length g]; exact htlt
      obtain ⟨mF, hdmF, hpcF, hminF, _⟩ :=
        ((dijkstra_correct hD).1 t htltF).1 ⟨dsrc, hfwd⟩
      have heq : dsrc = mF := Nat.le_antisymm (hfmin mF hpcF) (hminF dsrc hfwd)
      subst heq
      rw [getD_getElem? D t none, hdmF]
      rfl

theorem getKth_self {g : Graph} {s k fuel : Nat} {p : List Nat}
    (h : getKth fuel g s s k = some p) : p = [s] := by
  simp only [getKth] at h
  cases hd : dijkstra fuel (buildRev g) s (List.replicate g.length none) with
  | none => simp only [hd] at h; cases h
  | some dp =>
    obtain ⟨d, pred⟩ := dp
    simp only [hd] at h
    have hd2 : dijkstra fuel (buildRev g) s
        (List.replicate (buildRev g).length none) = some (d, pred) := by
      rw [buildRev_length]
      exact hd
    obtain ⟨inv, hslt⟩ := dijkstra_partial hd2
    have hds : d[s]? = some (some 0) := inv.hsrc0
    simp only [hds] at h
    cases hsp : spnsa fuel g s s k with
    | none => simp only [hsp] at h; cases h
    | some r =>
      cases r with
      | noPath => simp only [hsp] at h; cases h
      | found c side =>
        simp only [hsp] at h
        cases fuel with
        | zero => cases h
        | succ fuel' =>
          simp only [recon, if_pos rfl] at h
          simpa using (Option.some_inj.mp h).symm

/-! ### Fuel monotonicity: a successful run is unchanged by extra fuel -/

theorem step_mono_all {α : Type} {f : Nat → Option α}
    (hstep : ∀ n r, f n = some r → f (n + 1) = some r) :
    ∀ {n m : Nat} {r : α}, n ≤ m → f n = some r → f m = some r := by
  intro n m r hle h
  induction m, hle using Nat.le_induction with
  | base => exact h
  | succ m _ ih => exact hstep m r ih

theorem mergeF_mono :
    ∀ (fuel : Nat) (store : Store) (a b : Option Nat) (r : Store × Option Nat),
      mergeF fuel store a b = some r → mergeF (fuel + 1) store a b = some r := by
  intro fuel
  induction fuel with
  | zero => intro store a b r h; cases h
  | succ fuel ih =>
    intro store a b r h
    cases a with
    | none => exact h
    | some ia0 =>
      cases b with
      | none => exact h
      | some ib0 =>
        simp only [mergeF] at h ⊢
        cases ha : store[ia0]? with
        | none =>
          simp only [ha] at h
          cases h
        | some na0 =>
          cases hb : store[ib0]? with
          | none =>
            simp only [ha, hb] at h
            cases h
          | some nb0 =>
            simp only [ha, hb] at h ⊢
            cases hrec : mergeF fuel store
                (if nb0.key < na0.key then nb0 else na0).right
                (some (if nb0.key < na0.key then ia0 else ib0)) with
            | none =>
              simp only [hrec] at h
              cases h
            | some sr =>
              simp only [hrec] at h
              simp only [ih _ _ _ _ hrec]
              exact h

theorem insertF_mono {fuel : Nat} {store : Store} {h : Option Nat}
    {key origin value : Nat} {r : Store × Option Nat}
    (hm : insertF fuel store h key origin value = some r) :
    insertF (fuel + 1) store h key origin value = some r :=
  mergeF_mono fuel _ _ _ r hm

theorem processEdges_mono {mfuel : Nat} {d : DistA} {pu : Option Nat} {u du : Nat} :
    ∀ (es : List (Nat × Nat)) (store : Store) (hu : Option Nat) (sp : Bool)
      (r : Store × Option Nat),
      processEdges mfuel d pu u du es store hu sp = some r →
      processEdges (mfuel + 1) d pu u du es store hu sp = some r := by
  intro es
  induction es with
  | nil => intro store hu sp r h; exact h
  | cons e rest ih =>
    intro store hu sp r h
    obtain ⟨w, v⟩ := e
    simp only [processEdges] at h ⊢
    cases hdv : d.getD v none with
    | none =>
      simp only [hdv] at h ⊢
      exact ih _ _ _ _ h
    | some dv =>
      simp only [hdv] at h ⊢
      by_cases hskip : sp = false ∧ pu = some v ∧ w + dv - du = 0
      · rw [if_pos hskip] at h
        rw [if_pos hskip]
        exact ih _ _ _ _ h
      · rw [if_neg hskip] at h
        rw [if_neg hskip]
        cases hins : insertF mfuel store hu (w + dv - du) u v with
        | none => simp only [hins] at h; cases h
        | some sr =>
          simp only [hins] at h
          rw [insertF_mono hins]
          obtain ⟨store', h'⟩ := sr
          exact ih _ _ _ _ h

theorem buildLoop_mono_fuel {mfuel : Nat} {g : Graph} {d : DistA} {pred : PredA}
    {tree : List (List Nat)} :
    ∀ (fuel : Nat) (store : Store) (h : List (Option Nat)) (q : List Nat)
      (r : Store × List (Option Nat)),
      buildLoop mfuel g d pred tree fuel store h q = some r →
      buildLoop mfuel g d pred tree (fuel + 1) store h q = some r := by
  intro fuel
  induction fuel with
  | zero => intro store h q r hb; cases hb
  | succ fuel ih =>
    intro store h q r hb
    cases q with
    | nil => exact hb
    | cons u rest =>
      simp only [buildLoop] at hb ⊢
      cases hp : processEdges mfuel d (pred.getD u none) u
          ((d.getD u none).getD 0) (g.getD u []) store (h.getD u none) false with
      | none =>
        rw [hp] at hb
        cases hb
      | some sr =>
        rw [hp] at hb
        obtain ⟨store', hu⟩ := sr
        exact ih _ _ _ _ hb

theorem buildLoop_mono_mfuel {mfuel : Nat} {g : Graph} {d : DistA} {pred : PredA}
    {tree : List (List Nat)} :
    ∀ (fuel : Nat) (store : Store) (h : List (Option Nat)) (q : List Nat)
      (r : Store × List (Option Nat)),
      buildLoop mfuel g d pred tree fuel store h q = some r →
      buildLoop (mfuel + 1) g d pred tree fuel store h q = some r := by
  intro fuel
  induction fuel with
  | zero => intro store h q r hb; cases hb
  | succ fuel ih =>
    intro store h q r hb
    cases q with
    | nil => exact hb
    | cons u rest =>
      simp only [buildLoop] at hb ⊢
      cases hp : processEdges mfuel d (pred.getD u none) u
          ((d.getD u none).getD 0) (g.getD u []) store (h.getD u none) false with
      | none =>
        rw [hp] at hb
        cases hb
      | some sr =>
        rw [hp] at hb
        rw [processEdges_mono _ _ _ _ _ hp]
        obtain ⟨store', hu⟩ := sr
        exact ih _ _ _ _ hb

theorem dloop_mono {g : Graph} :
    ∀ (fuel : Nat) (st : DistA × PredA × List (Nat × Nat)) (r : DistA × PredA),
      dijkstraLoop g fuel st = some r → dijkstraLoop g (fuel + 1) st = some r := by
  intro fuel
  induction fuel with
  | zero => intro st r h; cases h
  | succ fuel ih =>
    intro st r h
    obtain ⟨d, pred, pq⟩ := st
    simp only [dijkstraLoop] at h ⊢
    cases hpop : popMin pq with
    | none =>
      rw [hpop] at h
      exact h
    | some pr =>
      obtain ⟨⟨du, u⟩, pq'⟩ := pr
      rw [hpop] at h
      simp only [] at h ⊢
      cases hdu : d[u]? with
      | none =>
        rw [hdu] at h
        cases h
      | some dcur =>
        rw [hdu] at h
        simp only [] at h ⊢
        by_cases hif : dcur = some du
        · rw [if_pos hif] at h ⊢
          cases hre : relaxEdges u du (g.getD u []) (d, pred, pq') with
          | none =>
            rw [hre] at h
            cases h
          | some st' =>
            rw [hre] at h
            exact ih _ _ h
        · rw [if_neg hif] at h ⊢
          exact ih _ _ h

theorem dijkstra_mono {g : Graph} {src : Nat} {pred0 : PredA}
    {fuel : Nat} {r : DistA × PredA}
    (h : dijkstra fuel g src pred0 = some r) :
    dijkstra (fuel + 1) g src pred0 = some r := by
  simp only [dijkstra] at h ⊢
  cases hs : (List.replicate g.length (none : Option Nat))[src]? with
  | none =>
    rw [hs] at h
    cases h
  | some v =>
    rw [hs] at h
    exact dloop_mono _ _ _ h

theorem dijkstra_mono_ge {g : Graph} {src : Nat} {pred0 : PredA}
    {fuel fuel2 : Nat} {r : DistA × PredA} (hle : fuel ≤ fuel2)
    (h : dijkstra fuel g src pred0 = some r) :
    dijkstra fuel2 g src pred0 = some r :=
  step_mono_all (f := fun n => dijkstra n g src pred0)
    (fun _ _ hx => dijkstra_mono hx) hle h

theorem buildLoop_mono_ge {g : Graph} {d : DistA} {pred : PredA}
    {tree : List (List Nat)} {mfuel fuel fuel2 : Nat} {store : Store}
    {h : List (Option Nat)} {q : List Nat} {r : Store × List (Option Nat)}
    (hle : mfuel ≤ fuel2) (hle2 : fuel ≤ fuel2)
    (hb : buildLoop mfuel g d pred tree fuel store h q = some r) :
    buildLoop fuel2 g d pred tree fuel2 store h q = some r := by
  have h1 : buildLoop fuel2 g d pred tree fuel store h q = some r :=
    step_mono_all (f := fun n => buildLoop n g d pred tree fuel store h q)
      (fun _ _ hx => buildLoop_mono_mfuel _ _ _ _ _ hx) hle hb
  exact step_mono_all (f := fun n => buildLoop fuel2 g d pred tree n store h q)
    (fun _ _ hx => buildLoop_mono_fuel _ _ _ _ _ hx) hle2 h1

/-! ### Concrete instances -/

/-! ### Divergence of the enumerator on zero-key self-reachable deviations -/

theorem enum_selfloop_none {store : Store} {h : List (Option Nat)} {k c i : Nat}
    {nd : HNode} {q0 : List (Nat × Nat)} (hk : 2 ≤ k)
    (hnd : store[i]? = some nd) (hkey : nd.key = 0)
    (hleft : nd.left = none) (hright : nd.right = none)
    (hjump : h.getD nd.value none = some i) :
    ∀ (fuel : Nat) (p : List (Nat × Nat)),
      enumLoop store h k fuel [(c, i, p)] [(c, q0)] = none := by
  intro fuel
  induction fuel with
  | zero => intro p; rfl
  | succ fuel ih =>
    intro p
    have hkle : ¬ k ≤ ([(c, q0)] : List (Nat × List (Nat × Nat))).length := by
      simp only [List.length_singleton]
      omega
    have hpop : popMinE [(c, i, p)] = some ((c, i, p), []) := by
      simp [popMinE]
    simp only [enumLoop, if_neg hkle, hpop, hnd, List.getLast?_singleton]
    rw [if_neg (lt_irrefl c)]
    simp only [pushJump, hjump, hnd, pushChild, hleft, hright, hkey]
    simpa using ih (p ++ [(nd.origin, nd.value)])

/-- Generic assembly: once every stage up to the enumerator is pinned and
the enumerator runs out of fuel, the whole solver runs out of fuel. -/
theorem spnsaRun_none_of_enum_none {fuel : Nat} {g : Graph} {s t k : Nat}
    {d : DistA} {pred : PredA} {store : Store} {hh : List (Option Nat)}
    {i dsrc : Nat} {nd : HNode}
    (hd : dijkstra fuel (buildRev g) t (List.replicate g.length none) =
      some (d, pred))
    (hds : d[s]? = some (some dsrc))
    (hb : buildLoop fuel g d pred (buildTree pred g.length) fuel []
      (List.replicate g.length none) [t] = some (store, hh))
    (hhs : hh.getD s none = some i)
    (hnd : store[i]? = some nd)
    (he : enumLoop store hh k fuel [(dsrc + nd.key, i, [])] [(dsrc, [])] = none) :
    spnsaRun fuel g s t k = none := by
  simp only [spnsaRun, hd, hds, hb, hhs, hnd, he]

theorem zc_spnsa_none {k : Nat} (hk : 2 ≤ k) :
    ∀ fuel, spnsa fuel zeroCycG 0 2 k = none := by
  intro fuel
  rcases Nat.lt_or_ge fuel 4 with hlt | hge
  · have hdn : dijkstra fuel (buildRev zeroCycG) 2
        (List.replicate zeroCycG.length none) = none := by
      interval_cases fuel <;> decide
    simp only [spnsa, spnsaRun, hdn]
  · have hd2 : dijkstra fuel (buildRev zeroCycG) 2
        (List.replicate zeroCycG.length none) =
        some ([some 1, some 1, some 0], [some 2, some 0, none]) :=
      dijkstra_mono_ge hge (by decide)
    have hb2 : buildLoop fuel zeroCycG [some 1, some 1, some 0]
        [some 2, some 0, none]
        (buildTree [some 2, some 0, none] zeroCycG.length) fuel []
        (List.replicate zeroCycG.length none) [2] =
        some ([⟨0, 0, 1, none, none, 1⟩], [some 0, some 0, none]) :=
      buildLoop_mono_ge hge hge (by decide)
    have he : enumLoop [⟨0, 0, 1, none, none, 1⟩] [some 0, some 0, none] k fuel
        [(1, 0, [])] [(1, [])] = none :=
      @enum_selfloop_none [⟨0, 0, 1, none, none, 1⟩] [some 0, some 0, none]
        k 1 0 ⟨0, 0, 1, none, none, 1⟩ [] hk rfl rfl rfl rfl rfl fuel []
    have hrun : spnsaRun fuel zeroCycG 0 2 k = none :=
      spnsaRun_none_of_enum_none hd2 rfl hb2 rfl rfl he
    simp only [spnsa, hrun]

theorem self_spnsa_none {k : Nat} (hk : 2 ≤ k) :
    ∀ fuel, spnsa fuel selfG 0 0 k = none := by
  intro fuel
  rcases Nat.lt_or_ge fuel 3 with hlt | hge
  · have hdn : dijkstra fuel (buildRev selfG) 0
        (List.replicate selfG.length none) = none := by
      interval_cases fuel <;> decide
    simp only [spnsa, spnsaRun, hdn]
  · have hd2 : dijkstra fuel (buildRev selfG) 0
        (List.replicate selfG.length none) =
        some ([some 0, some 0], [none, some 0]) :=
      dijkstra_mono_ge hge (by decide)
    have hb2 : buildLoop fuel selfG [some 0, some 0] [none, some 0]
        (buildTree [none, some 0] selfG.length) fuel []
        (List.replicate selfG.length none) [0] =
        some ([⟨0, 0, 1, none, none, 1⟩], [some 0, some 0]) :=
      buildLoop_mono_ge hge hge (by decide)
    have he : enumLoop [⟨0, 0, 1, none, none, 1⟩] [some 0, some 0] k fuel
        [(0, 0, [])] [(0, [])] = none :=
      @enum_selfloop_none [⟨0, 0, 1, none, none, 1⟩] [some 0, some 0]
        k 0 0 ⟨0, 0, 1, none, none, 1⟩ [] hk rfl rfl rfl rfl rfl fuel []
    have hrun : spnsaRun fuel selfG 0 0 k = none :=
      spnsaRun_none_of_enum_none hd2 rfl hb2 rfl rfl he
    simp only [spnsa, hrun]

theorem self_getKth_none : ∀ fuel, getKth fuel selfG 0 0 2 = none := by
  intro fuel
  rcases Nat.lt_or_ge fuel 3 with hlt | hge
  · have hdn : dijkstra fuel (buildRev selfG) 0
        (List.replicate selfG.length none) = none := by
      interval_cases fuel <;> decide
    simp only [getKth, hdn]
  · have hd2 : dijkstra fuel (buildRev selfG) 0
        (List.replicate selfG.length none) =
        some ([some 0, some 0], [none, some 0]) :=
      dijkstra_mono_ge hge (by decide)
    have hsp : spnsa fuel selfG 0 0 2 = none := self_spnsa_none (by omega) fuel
    have hds0 : ([some 0, some 0] : DistA)[0]? = some (some 0) := rfl
    simp only [getKth, hd2, hds0, hsp]

/-! ### Arrival costs in the zero-cycle graph -/

theorem zc_pathcost :
    ∀ (c x : Nat), PathCost zeroCycG 0 x c →
      ((x = 0 ∧ c = 0) ∨ (x = 1 ∧ c = 0) ∨ (x = 2 ∧ c = 1)) := by
  intro c x h
  induction h with
  | refl => exact Or.inl ⟨rfl, rfl⟩
  | @step u v w c0 _ hedge ih =>
    rcases ih with ⟨hu, hc⟩ | ⟨hu, hc⟩ | ⟨hu, hc⟩
    · subst hu
      subst hc
      have : (w, v) ∈ [((0 : Nat), (1 : Nat)), (1, 2)] := hedge
      rcases List.mem_cons.mp this with h1 | h1
      · simp only [Prod.mk.injEq] at h1
        exact Or.inr (Or.inl ⟨h1.2, by omega⟩)
      · simp only [List.mem_singleton, Prod.mk.injEq] at h1
        exact Or.inr (Or.inr ⟨h1.2, by omega⟩)
    · subst hu
      subst hc
      have : (w, v) ∈ [((0 : Nat), (0 : Nat))] := hedge
      simp only [List.mem_singleton, Prod.mk.injEq] at this
      exact Or.inl ⟨this.2, by omega⟩
    · subst hu
      subst hc
      have : (w, v) ∈ ([] : List (Nat × Nat)) := hedge
      cases this

theorem zc_reach : PathCost zeroCycG 0 2 1 := by
  have h : ((1 : Nat), (2 : Nat)) ∈ zeroCycG.getD 0 [] := by
    simp [zeroCycG]
  exact PathCost.step PathCost.refl h

/-! ### The first collected result survives the enumerator -/

theorem enumLoop_head {store : Store} {h : List (Option Nat)} {k : Nat} :
    ∀ (fuel : Nat) (pq : List (Nat × Nat × List (Nat × Nat)))
      (results res : List (Nat × List (Nat × Nat))),
      enumLoop store h k fuel pq results = some res →
      results ≠ [] → res.head? = results.head? := by
  intro fuel
  induction fuel with
  | zero => intro pq results res hrun; cases hrun
  | succ fuel ih =>
    intro pq results res hrun hne
    simp only [enumLoop] at hrun
    by_cases hk : k ≤ results.length
    · rw [if_pos hk] at hrun
      rw [Option.some_inj.mp hrun]
    · rw [if_neg hk] at hrun
      cases hpop : popMinE pq with
      | none =>
        rw [hpop] at hrun
        rw [Option.some_inj.mp hrun]
      | some pr =>
        obtain ⟨⟨cd, i, path⟩, pq'⟩ := pr
        rw [hpop] at hrun
        cases hnd : store[i]? with
        | none => simp only [hnd] at hrun; cases hrun
        | some nd =>
          simp only [hnd] at hrun
          cases hlast : results.getLast? with
          | none => simp only [hlast] at hrun; cases hrun
          | some last =>
            simp only [hlast] at hrun
            cases hp1 : pushJump store h cd nd
                (path ++ [(nd.origin, nd.value)]) pq' with
            | none => simp only [hp1] at hrun; cases hrun
            | some pq1 =>
              simp only [hp1] at hrun
              cases hp2 : pushChild store cd nd.key nd.left path pq1 with
              | none => simp only [hp2] at hrun; cases hrun
              | some pq2 =>
                simp only [hp2] at hrun
                cases hp3 : pushChild store cd nd.key nd.right path pq2 with
                | none => simp only [hp3] at hrun; cases hrun
                | some pq3 =>
                  simp only [hp3] at hrun
                  by_cases hcd : last.1 < cd
                  · rw [if_pos hcd] at hrun
                    have hh := ih pq3 _ res hrun (by simp)
                    rw [hh]
                    cases results with
                    | nil => exact absurd rfl hne
                    | cons a as => rfl
                  · rw [if_neg hcd] at hrun
                    exact ih pq3 _ res hrun hne

theorem spnsaRun_head {fuel : Nat} {g : Graph} {src dst k : Nat}
    {rs : List (Nat × List (Nat × Nat))}
    (h : spnsaRun fuel g src dst k = some (SPRun.run rs)) :
    ∃ d pred dsrc,
      dijkstra fuel (buildRev g) dst (List.replicate g.length none) =
        some (d, pred) ∧
      d[src]? = some (some dsrc) ∧ rs.head? = some (dsrc, []) := by
  simp only [spnsaRun] at h
  cases hd : dijkstra fuel (buildRev g) dst (List.replicate g.length none) with
  | none => simp only [hd] at h; cases h
  | some dp =>
    obtain ⟨d, pred⟩ := dp
    simp only [hd] at h
    cases hds : d[src]? with
    | none => simp only [hds] at h; cases h
    | some dsv =>
      simp only [hds] at h
      cases dsv with
      | none =>
        simp only [] at h
        cases Option.some_inj.mp h
      | some dsrc =>
        simp only [] at h
        refine ⟨d, pred, dsrc, rfl, hds, ?_⟩
        cases hb : buildLoop fuel g d pred (buildTree pred g.length) fuel []
            (List.replicate g.length none) [dst] with
        | none => simp only [hb] at h; cases h
        | some sh =>
          obtain ⟨store, hh⟩ := sh
          simp only [hb] at h
          cases hhs : hh.getD src none with
          | none =>
            simp only [hhs] at h
            have h2 := Option.some_inj.mp h
            injection h2 with h3
            rw [← h3]
            rfl
          | some i =>
            simp only [hhs] at h
            cases hnd : store[i]? with
            | none => simp only [hnd] at h; cases h
            | some nd =>
              simp only [hnd] at h
              cases he : enumLoop store hh k fuel [(dsrc + nd.key, i, [])]
                  [(dsrc, [])] with
              | none => simp only [he] at h; cases h
              | some rs' =>
                simp only [he] at h
                have h2 := Option.some_inj.mp h
                injection h2 with h3
                subst h3
                rw [enumLoop_head fuel _ _ _ he (by simp)]
                rfl

/-- The distance the destination-rooted solve stores at the source is the
true shortest-path cost from source to destination in the original graph, and
agrees with what a forward run of dijkstra from the source reports at the
destination. -/
theorem rev_dsrc_minimal {g : Graph} {s t fuel dsrc : Nat} {d : DistA}
    {pred : PredA} (hwf : WFGraph g)
    (hd : dijkstra fuel (buildRev g) t (List.replicate g.length none) =
      some (d, pred))
    (hds : d[s]? = some (some dsrc)) :
    PathCost g s t dsrc ∧ (∀ c', PathCost g s t c' → dsrc ≤ c') ∧
      ∀ (fuel2 : Nat) (D : DistA) (P : PredA),
        dijkstra fuel2 g s (List.replicate g.length none) = some (D, P) →
        D.getD t none = some dsrc := by
  have hd2 : dijkstra fuel (buildRev g) t
      (List.replicate (buildRev g).length none) = some (d, pred) := by
    rw [buildRev_length]
    exact hd
  obtain ⟨inv, htlt⟩ := dijkstra_partial hd2
  have hdso : d[s]? = some (some dsrc) := hds
  have hslt : s < (buildRev g).length := by
    rw [← inv.hlen]
    exact lt_of_getElem?_eq_some hdso
  have hreach : Reachable (buildRev g) t s := by
    by_contra hnr
    obtain ⟨hdnone, _⟩ := ((dijkstra_correct hd2).1 s hslt).2 hnr
    rw [hdso] at hdnone
    cases Option.some_inj.mp hdnone
  obtain ⟨m, hdm, hpc, hmin, _⟩ := ((dijkstra_correct hd2).1 s hslt).1 hreach
  have hm : dsrc = m := by
    rw [hdso] at hdm
    exact Option.some_inj.mp (Option.some_inj.mp hdm)
  subst hm
  have hfwd : PathCost g s t dsrc := pathCost_unrev hpc
  have hfmin : ∀ c', PathCost g s t c' → dsrc ≤ c' := by
    intro c' hc'
    exact hmin c' (pathCost_rev hwf hc')
  refine ⟨hfwd, hfmin, ?_⟩
  intro fuel2 D P hD
  have htltF : t < g.length := by rw [← buildRev_length g]; exact htlt
  obtain ⟨mF, hdmF, hpcF, hminF, _⟩ :=
    ((dijkstra_correct hD).1 t htltF).1 ⟨dsrc, hfwd⟩
  have heq : dsrc = mF := Nat.le_antisymm (hfmin mF hpcF) (hminF dsrc hfwd)
  subst heq
  rw [getD_getElem? D t none, hdmF]
  rfl

/-! ### Small helpers for the concrete witnesses -/

theorem WFGraph_of {g : Graph} (h : ∀ l ∈ g, ∀ e ∈ l, e.2 < g.length) :
    WFGraph g := by
  intro u e he
  rcases Nat.lt_or_ge u g.length with hu | hu
  · rw [getD_getElem? g u [], List.getElem?_eq_getElem hu] at he
    exact h _ (List.getElem_mem hu) e he
  · rw [getD_getElem? g u [], List.getElem?_eq_none (by simpa using hu)] at he
    cases he

theorem disc_pathcost : ∀ (c x : Nat), PathCost discG 0 x c → x = 0 := by
  intro c x h
  induction h with
  | refl => rfl
  | @step u v w c0 _ hedge ih =>
    subst ih
    have : (w, v) ∈ ([] : List (Nat × Nat)) := hedge
    cases this

theorem oob_pathcost : ∀ (c x : Nat), PathCost oobG 1 x c → x = 1 := by
  intro c x h
  induction h with
  | refl => rfl
  | @step u v w c0 _ hedge ih =>
    subst ih
    have : (w, v) ∈ ([] : List (Nat × Nat)) := hedge
    cases this

theorem oob_spnsa_none : ∀ fuel, spnsa fuel oobG 1 0 1 = none := by
  intro fuel
  rcases Nat.lt_or_ge fuel 2 with hlt | hge
  · have hdn : dijkstra fuel (buildRev oobG) 0
        (List.replicate oobG.length none) = none := by
      interval_cases fuel <;> decide
    simp only [spnsa, spnsaRun, hdn]
  · have hd2 : dijkstra fuel (buildRev oobG) 0
        (List.replicate oobG.length none) = some ([some 0], [none]) :=
      dijkstra_mono_ge hge (by decide)
    have hds : ([some 0] : DistA)[1]? = none := rfl
    simp only [spnsa, spnsaRun, hd2, hds]

theorem oob_getKth_none : ∀ fuel, getKth fuel oobG 1 0 1 = none := by
  intro fuel
  rcases Nat.lt_or_ge fuel 2 with hlt | hge
  · have hdn : dijkstra fuel (buildRev oobG) 0
        (List.replicate oobG.length none) = none := by
      interval_cases fuel <;> decide
    simp only [getKth, hdn]
  · have hd2 : dijkstra fuel (buildRev oobG) 0
        (List.replicate oobG.length none) = some ([some 0], [none]) :=
      dijkstra_mono_ge hge (by decide)
    have hds : ([some 0] : DistA)[1]? = none := rfl
    simp only [getKth, hd2, hds]

theorem zc_getKth_none : ∀ fuel, getKth fuel zeroCycG 0 2 2 = none := by
  intro fuel
  rcases Nat.lt_or_ge fuel 4 with hlt | hge
  · have hdn : dijkstra fuel (buildRev zeroCycG) 2
        (List.replicate zeroCycG.length none) = none := by
      interval_cases fuel <;> decide
    simp only [getKth, hdn]
  · have hd2 : dijkstra fuel (buildRev zeroCycG) 2
        (List.replicate zeroCycG.length none) =
        some ([some 1, some 1, some 0], [some 2, some 0, none]) :=
      dijkstra_mono_ge hge (by decide)
    have hsp : spnsa fuel zeroCycG 0 2 2 = none := zc_spnsa_none (by omega) fuel
    have hds0 : ([some 1, some 1, some 0] : DistA)[0]? = some (some 1) := rfl
    simp only [getKth, hd2, hds0, hsp]

theorem exG_path03 : PathCost exG 0 3 2 := by
  have e1 : ((1 : Nat), (1 : Nat)) ∈ exG.getD 0 [] := by decide
  have e2 : ((1 : Nat), (3 : Nat)) ∈ exG.getD 1 [] := by decide
  have h1 : PathCost exG 0 1 (0 + 1) := PathCost.step PathCost.refl e1
  have h2 : PathCost exG 0 3 ((0 + 1) + 1) := PathCost.step h1 e2
  simpa using h2

/-! ### The claims -/

/-- C1: for every finite graph with non-negative edge weights and every root
node, dijkstra returns (for sufficient fuel) a distance array in which every
node reachable from the root carries the true minimal path cost from the
root and every unreachable node keeps the infinity sentinel, and it fills
the predecessor array so that following pred from any reachable node leads
back to the root along a path of edges of the graph whose cost equals that
node's distance, with pred of the root and of unreachable nodes left at the
sentinel. -/
theorem claim1_dijkstra_correct (g : Graph) (src : Nat)
    (hwf : WFGraph g) (hsrc : src < g.length) :
    (∃ fuel d pred,
      dijkstra fuel g src (List.replicate g.length none) = some (d, pred)) ∧
    ∀ (fuel : Nat) (d : DistA) (pred : PredA),
      dijkstra fuel g src (List.replicate g.length none) = some (d, pred) →
      (∀ v, v < g.length →
        (Reachable g src v →
          ∃ m, d[v]? = some (some m) ∧ PathCost g src v m ∧
            (∀ c, PathCost g src v c → m ≤ c) ∧ PredPath g pred src v m) ∧
        (¬Reachable g src v → d[v]? = some none ∧ pred[v]? = some none)) ∧
      pred[src]? = some none :=
  ⟨dijkstra_total hwf hsrc, fun _ _ _ h => dijkstra_correct h⟩

theorem claim1_witness :
    WFGraph exG ∧ 0 < exG.length ∧
    ∃ fuel d pred,
      dijkstra fuel exG 0 (List.replicate exG.length none) = some (d, pred) :=
  ⟨WFGraph_of (by decide), by decide,
    (claim1_dijkstra_correct exG 0 (WFGraph_of (by decide)) (by decide)).1⟩

/-- C2: contrary to the claim that no heap node is mutated after its heap is
shared, HeapNode.merge mutates the surviving root in place. In the builder's
run on aliasG, node 1 inherits node 0's heap handle (the shared root at
store index 0, allocated as key 2, origin 0, value 3, no children); the
insertion of node 1's deviation (key 3, origin 1, value 3) returns that same
handle 0 while changing the stored node's left pointer, and the finished
build leaves both h 0 and h 1 aliased to the mutated node. -/
theorem claim2_merge_mutates_shared :
    insertF 10 [⟨2, 0, 3, none, none, 1⟩] (some 0) 3 1 3 =
      some ([⟨2, 0, 3, some 1, none, 1⟩, ⟨3, 1, 3, none, none, 1⟩], some 0) ∧
    (⟨2, 0, 3, some 1, none, 1⟩ : HNode) ≠ ⟨2, 0, 3, none, none, 1⟩ ∧
    dijkstra 30 (buildRev aliasG) 3 (List.replicate aliasG.length none) =
      some ([some 1, some 2, none, some 0], [some 3, some 0, none, none]) ∧
    buildLoop 30 aliasG [some 1, some 2, none, some 0]
      [some 3, some 0, none, none]
      (buildTree [some 3, some 0, none, none] aliasG.length) 30 []
      (List.replicate aliasG.length none) [3] =
      some ([⟨2, 0, 3, some 1, none, 1⟩, ⟨3, 1, 3, none, none, 1⟩],
        [some 0, some 0, none, none]) := by decide

/-- C3: for every graph, source, destination and k, the results list
collected by shortest_paths_no_same_arrival is strictly increasing in cost:
no two collected results share the same total arrival cost. -/
theorem claim3_results_strictly_increasing (g : Graph) (s t k fuel : Nat)
    (rs : List (Nat × List (Nat × Nat)))
    (h : spnsaRun fuel g s t k = some (SPRun.run rs)) :
    List.Chain' (· < ·) (rs.map Prod.fst) :=
  (spnsaRun_sorted h).2

theorem claim3_witness :
    List.Chain' (· < ·)
      (([(2, []), (3, [(0, 2)])] : List (Nat × List (Nat × Nat))).map
        Prod.fst) :=
  claim3_results_strictly_increasing exG 0 3 3 30 _ (by decide)

/-- C4: for every well-formed graph with non-negative weights and reachable
pair (s, t), the first collected result of shortest_paths_no_same_arrival
has an empty sidetrack list and its cost is the true shortest-path cost
from s to t, which is exactly the value a forward run of dijkstra from s
reports at t. -/
theorem claim4_first_result (g : Graph) (s t : Nat) (hwf : WFGraph g)
    (hreach : Reachable g s t) (fuel k : Nat)
    (rs : List (Nat × List (Nat × Nat)))
    (h : spnsaRun fuel g s t k = some (SPRun.run rs)) :
    ∃ c, rs.head? = some (c, []) ∧ PathCost g s t c ∧
      (∀ c', PathCost g s t c' → c ≤ c') ∧
      ∀ (fuel2 : Nat) (D : DistA) (P : PredA),
        dijkstra fuel2 g s (List.replicate g.length none) = some (D, P) →
        D.getD t none = some c := by
  obtain ⟨d, pred, dsrc, hd, hds, hhead⟩ := spnsaRun_head h
  obtain ⟨h1, h2, h3⟩ := rev_dsrc_minimal hwf hd hds
  exact ⟨dsrc, hhead, h1, h2, h3⟩

theorem claim4_witness : PathCost exG 0 3 2 :=
  (claim4_first_result exG 0 3 (WFGraph_of (by decide)) ⟨2, exG_path03⟩ 30 1
    [(2, [])] (by decide)).elim
    (fun c hc => by
      have hc1 := hc.1
      simp only [List.head?_cons, Option.some_inj] at hc1
      have : c = 2 := by
        have := congrArg Prod.fst hc1
        simpa using this.symm
      rw [← this]
      exact hc.2.1)

/-- C5: the claimed reconstruction round-trip fails on the code: on aliasG
with source 0, destination 3 and k 3, the enumerator (whose heaps were
corrupted by in-place merging of shared nodes) selects the sidetrack list
[(1, 3)] at cost 4, the reconstructor drops the never-matching sidetrack
and returns the plain tree path [0, 3], yet no edge from 0 to 3 has weight
4, so the edge-weight sum along the returned sequence cannot equal the
reported cost. -/
theorem claim5_reconstruction_mismatch :
    spnsa 30 aliasG 0 3 3 = some (SPResult.found 4 [(1, 3)]) ∧
    getKth 30 aliasG 0 3 3 = some [0, 3] ∧
    (∀ e ∈ aliasG.getD 0 [], e.2 = 3 → e.1 ≠ 4) := by decide

/-- C6: the claim that the bounded result count k bounds the enumerator's
work fails on the code: on the zero-weight cycle graph zeroCycG the
destination 2 is reachable from the source 0, yet for k 2 the enumerator
re-pushes the same zero-key deviation forever, so the solver never returns
for any amount of fuel. -/
theorem claim6_enumerator_diverges :
    PathCost zeroCycG 0 2 1 ∧
    (∀ fuel, spnsa fuel zeroCycG 0 2 2 = none) ∧
    (∀ fuel, getKth fuel zeroCycG 0 2 2 = none) :=
  ⟨zc_reach, fun fuel => zc_spnsa_none (by omega) fuel, zc_getKth_none⟩

/-- C7 (amended): for every well-formed graph whose source s and
destination t are nodes, if t is not reachable from s then for every k the
solver returns the no-path sentinel as a value: shortest_paths_no_same_arrival
returns -1 and get_kth_shortest_path returns the empty list, uniformly in
the available fuel, and some fuel suffices to produce the sentinel. As
stated over every source index, the claim is false: a source index out of
range makes the program raise an IndexError at the distance check instead
of returning the sentinel (see the counterexample). -/
theorem claim7_unreachable (g : Graph) (s t k : Nat) (hwf : WFGraph g)
    (hs : s < g.length) (ht : t < g.length) (hnr : ¬Reachable g s t) :
    (∀ fuel, spnsa fuel g s t k = none ∨
      spnsa fuel g s t k = some SPResult.noPath) ∧
    (∃ fuel, spnsa fuel g s t k = some SPResult.noPath) ∧
    (∀ fuel, getKth fuel g s t k = none ∨ getKth fuel g s t k = some []) ∧
    (∃ fuel, getKth fuel g s t k = some []) := by
  refine ⟨?_, ?_, fun fuel => getKth_unreachable hnr,
    getKth_unreachable_exists hs ht hnr⟩
  · intro fuel
    rcases @spnsa_unreachable_run g s t k fuel hnr with h | h
    · exact Or.inl (by simp only [spnsa, h])
    · exact Or.inr (by simp only [spnsa, h])
  · obtain ⟨fuel, h⟩ := @spnsa_unreachable_exists g s t k hs ht hnr
    exact ⟨fuel, by simp only [spnsa, h]⟩

theorem claim7_witness :
    ∃ fuel, spnsa fuel discG 0 1 5 = some SPResult.noPath :=
  (claim7_unreachable discG 0 1 5 (WFGraph_of (by decide)) (by decide)
    (by decide)
    (fun hr => by
      obtain ⟨c, hc⟩ := hr
      have h0 := disc_pathcost c 1 hc
      cases h0)).2.1

theorem claim7_counterexample :
    ¬Reachable oobG 1 0 ∧
    (∀ fuel, spnsa fuel oobG 1 0 1 = none) ∧
    (∀ fuel, getKth fuel oobG 1 0 1 = none) :=
  ⟨fun hr => by
    obtain ⟨c, hc⟩ := hr
    exact absurd (oob_pathcost c 0 hc) (by decide),
   oob_spnsa_none, oob_getKth_none⟩

/-- C8 (amended): whenever the enumerator loop terminates having collected
fewer than k results (in particular when fewer than k distinct arrival
costs exist), shortest_paths_no_same_arrival does not fail: it returns the
last collected result, whose cost is the largest among all collected
results. As stated, the claim is false: the enumerator can fail to
terminate at all when fewer than k distinct arrival costs exist (see the
counterexample). -/
theorem claim8_saturates (g : Graph) (s t k fuel : Nat)
    (rs : List (Nat × List (Nat × Nat)))
    (h : spnsaRun fuel g s t k = some (SPRun.run rs)) (hlt : rs.length < k) :
    ∃ c p, rs.getLast? = some (c, p) ∧
      spnsa fuel g s t k = some (SPResult.found c p) ∧
      ∀ pr ∈ rs, pr.1 ≤ c :=
  spnsa_last_max h

theorem claim8_witness :
    ∃ c p,
      (([(2, []), (3, [(0, 2)])] :
        List (Nat × List (Nat × Nat))).getLast? = some (c, p)) ∧
      spnsa 30 exG 0 3 3 = some (SPResult.found c p) ∧
      ∀ pr ∈ ([(2, []), (3, [(0, 2)])] : List (Nat × List (Nat × Nat))),
        pr.1 ≤ c :=
  claim8_saturates exG 0 3 3 30 _ (by decide) (by decide)

theorem claim8_counterexample :
    (∀ c, PathCost zeroCycG 0 2 c → c = 1) ∧ PathCost zeroCycG 0 2 1 ∧
    (∀ fuel, spnsa fuel zeroCycG 0 2 3 = none) := by
  refine ⟨?_, zc_reach, fun fuel => zc_spnsa_none (by omega) fuel⟩
  intro c h
  rcases zc_pathcost c 2 h with ⟨h1, _⟩ | ⟨h1, _⟩ | ⟨_, h2⟩
  · exact absurd h1 (by decide)
  · exact absurd h1 (by decide)
  · exact h2

/-- C9: on the concrete graph with nodes 0..3 and edges (0,1,1), (1,3,1),
(0,2,2), (2,3,1), with source 0 and destination 3: for k 1 the solver
returns cost 2 and path [0, 1, 3]; for k 2 it returns cost 3 and path
[0, 2, 3]; for k 3, no third distinct cost existing, it returns the same
result as for k 2. -/
theorem claim9_concrete_scenario :
    spnsa 30 exG 0 3 1 = some (SPResult.found 2 []) ∧
    getKth 30 exG 0 3 1 = some [0, 1, 3] ∧
    spnsa 30 exG 0 3 2 = some (SPResult.found 3 [(0, 2)]) ∧
    getKth 30 exG 0 3 2 = some [0, 2, 3] ∧
    spnsa 30 exG 0 3 3 = spnsa 30 exG 0 3 2 ∧
    getKth 30 exG 0 3 3 = getKth 30 exG 0 3 2 := by decide

/-- C10 (amended): when the source equals the destination, any terminating
run of get_kth_shortest_path returns the single-node sequence consisting of
the source, for every k: the reconstruction loop exits immediately, so the
sidetrack list selected by the enumerator is ignored. As universally
stated, the claim is false: for k above 1 the call need not terminate at
all when a zero-cost cycle passes through the source (see the
counterexample). -/
theorem claim10_source_equals_destination (g : Graph) (s k fuel : Nat)
    (p : List Nat) (h : getKth fuel g s s k = some p) : p = [s] :=
  getKth_self h

theorem claim10_witness :
    getKth 30 exG 3 3 5 = some [3] ∧ ([3] : List Nat) = [3] :=
  ⟨by decide, claim10_source_equals_destination exG 3 5 30 [3] (by decide)⟩

theorem claim10_counterexample :
    1 ≤ 2 ∧ (∀ fuel, getKth fuel selfG 0 0 2 = none) :=
  ⟨by omega, self_getKth_none⟩

end Epp
